import Mathlib

/-!
Verification of the control-flow-graph builder and column layout engine of
`dump_instrs.py` (together with `get_op_targets` from `decode.py`).

The Python code is shallowly embedded: pure functions become Lean functions,
the mutable object graph (BLOCK and LINK objects aliased from several
containers) becomes an arena of records addressed by stable identifiers, and
Python exceptions become `Except PyErr`.
-/

/-- The Python exceptions that the embedded code can raise.  `fuelExhausted`
is not a Python exception: it is returned when the fuel bound given to the
embedded `identify_link_targets` loop runs out (the Python loop has no such
bound; all runs evaluated in this development stay far below the bound). -/
inductive PyErr where
  | nameError
  | exception
  | indexError
  | stopIteration
  | typeError
  | valueError
  | assertError
  | fuelExhausted
deriving DecidableEq, Repr

/-- Branch flags from `envi/__init__.py` (vivisect).  Only their bit
patterns matter to the embedded code. -/
def BR_PROC : Nat := 1

def BR_COND : Nat := 2

def BR_DEREF : Nat := 4

def BR_TABLE : Nat := 8

def BR_FALL : Nat := 16

def BR_ARCH : Nat := 32

/-- A decoded instruction as far as the CFG code observes it: its encoded
size (`op.size`) and the result of `op.getBranches()`, a list of pairs
`(bva, bflags)` where `bva : Option Nat` models a target address or
Python `None`. -/
structure Op where
  size : Nat
  branches : List (Option Nat × Nat)
deriving DecidableEq, Repr

/-- `LINE` from dump_instrs.py.  `size` models `len(self.data)`; the raw
bytes themselves are never inspected by the block/link/column code, only
their count.  `width` models `len(str(self))`: the rendered string includes
the opaque external decoder's `str(op)`, so its length is carried as data.
`comment` is the mutable annotation. -/
structure LINE where
  addr : Nat
  size : Nat
  op : Option Op := none
  width : Nat := 0
  comment : String := ""
deriving DecidableEq, Repr

/-- The dictionary built by `get_op_targets`: for each of the four
`TGT_TYPE` keys, `none` means the key is absent and `some v` means the key
maps to `v` (where `v : Option Nat` models the stored `bva`, itself
possibly Python `None`). -/
structure Targets where
  fall : Option (Option Nat) := none
  branch : Option (Option Nat) := none
  ret : Option (Option Nat) := none
  call : Option (Option Nat) := none
deriving DecidableEq, Repr

/-- One iteration of the `for bva, bflags in op.getBranches()` loop of
`get_op_targets` (decode.py lines 50-62), translated verbatim: the outer
guard is `bflags & envi.BR_PROC` and the first inner case re-tests the very
same expression. -/
def targetsStep (t : Targets) (br : Option Nat × Nat) : Targets :=
  if br.2 &&& BR_PROC ≠ 0 then
    if br.2 &&& BR_PROC ≠ 0 then { t with call := some br.1 }
    else if br.2 &&& BR_FALL ≠ 0 then { t with fall := some br.1 }
    else if br.1 = none then { t with ret := some br.1 }
    else { t with branch := some br.1 }
  else t

/-- `get_op_targets` (decode.py lines 45-63). -/
def get_op_targets : Option Op → Option Targets
  | none => none
  | some op => some (op.branches.foldl targetsStep {})

/-- `BLOCK` from dump_instrs.py.  `links` models the insertion-ordered
dictionary `self.links : addr -> LINK`; its values are identifiers into the
link arena of the surrounding state (Python stores the `LINK` objects
themselves; aliasing is modelled through the arena).  `col` is the `_col`
attribute behind the `col` property. -/
structure BLOCK where
  idx : Nat
  lines : List LINE
  links : List (Option Nat × Nat) := []
  col : Option Int := none
deriving DecidableEq, Repr

/-- `LINK` from dump_instrs.py.  `src` and `dest` are block identifiers
into the block arena (Python holds the `BLOCK` objects).  `colRaw` models
the `_col` attribute. -/
structure LINK where
  addr : Option Nat := none
  src : Nat := 0
  dest : Option Nat := none
  colRaw : Option Int := none
deriving DecidableEq, Repr

/-- The aliased object graph of a `BLOCK_LIST`: `arena` owns every `BLOCK`
object ever created (identifier = position, never reordered), `order` is
`BLOCK_LIST.blocks` as a list of identifiers, and `links` is both the
`LINK` arena and `LINK_LIST.links` (every link created is appended there
exactly once, in creation order, matching the Python code).  `colWidth`,
`numRightCols` and `numLeftCols` are the attributes set by `finalize`. -/
structure BLOCK_LIST where
  arena : List BLOCK := []
  order : List Nat := []
  links : List LINK := []
  colWidth : Nat := 0
  numRightCols : Int := 0
  numLeftCols : Int := 0
deriving DecidableEq, Repr

def getBlk (st : BLOCK_LIST) (uid : Nat) : BLOCK :=
  st.arena.getD uid { idx := 0, lines := [] }

def setBlk (st : BLOCK_LIST) (uid : Nat) (b : BLOCK) : BLOCK_LIST :=
  { st with arena := st.arena.set uid b }

def getLnk (st : BLOCK_LIST) (lid : Nat) : LINK :=
  st.links.getD lid {}

def setLnk (st : BLOCK_LIST) (lid : Nat) (l : LINK) : BLOCK_LIST :=
  { st with links := st.links.set lid l }

/-- `BLOCK.start` (`self.lines[0].addr`).  Python raises IndexError on an
empty block; the embedded code only evaluates `start` on non-empty blocks
(the default 0 is never reached on the paths the theorems cover). -/
def BLOCK.start (b : BLOCK) : Nat :=
  (b.lines.head?.map LINE.addr).getD 0

/-- `BLOCK.end` (`end` is a Lean keyword): `last_line.addr + last_line.size`. -/
def BLOCK.stop (b : BLOCK) : Nat :=
  match b.lines.getLast? with
  | some l => l.addr + l.size
  | none => 0

/-- `BLOCK.__len__`: `sum(l.size for l in self.lines)`. -/
def BLOCK.byteLen (b : BLOCK) : Nat :=
  (b.lines.map LINE.size).sum

/-- `BLOCK.__contains__`: `addr >= self.start and addr < self.end`. -/
def BLOCK.containsAddr (b : BLOCK) (a : Nat) : Bool :=
  decide (b.start ≤ a) && decide (a < b.stop)

/-- `BLOCK.width`: `max(l.width for l in self.lines)` (Python raises on an
empty block; the embedding folds from 0, and the block is non-empty
wherever `finalize` evaluates this). -/
def BLOCK.dispWidth (b : BLOCK) : Nat :=
  (b.lines.map LINE.width).foldl max 0

/-- `LINK.valid`: `self.dest is not None`. -/
def LINK.validB (l : LINK) : Bool :=
  l.dest.isSome

/-- `self.src.idx` of a link (reading the aliased BLOCK object's field). -/
def srcIdx (st : BLOCK_LIST) (l : LINK) : Nat :=
  (getBlk st l.src).idx

/-- `self.dest.idx` of a link (only meaningful when the link is valid). -/
def destIdx (st : BLOCK_LIST) (l : LINK) : Nat :=
  match l.dest with
  | some u => (getBlk st u).idx
  | none => 0

/-- `LINK.forwards`: `self.valid and self.dest.idx > self.src.idx`. -/
def forwardsB (st : BLOCK_LIST) (l : LINK) : Bool :=
  l.validB && decide (srcIdx st l < destIdx st l)

/-- `LINK.backwards`: `self.valid and self.dest.idx <= self.src.idx`. -/
def backwardsB (st : BLOCK_LIST) (l : LINK) : Bool :=
  l.validB && decide (destIdx st l ≤ srcIdx st l)

/-- `LINK.__contains__(block)` for an integer block index (dump_instrs.py
lines 155-166), translated clause by clause. -/
def containsIdx (st : BLOCK_LIST) (l : LINK) (i : Nat) : Bool :=
  if forwardsB st l && decide (srcIdx st l ≤ i) && decide (i < destIdx st l) then
    true
  else if backwardsB st l && decide (i ≤ srcIdx st l) && decide (destIdx st l ≤ i) then
    true
  else
    false

/-- The `LINK.col` property getter: the column of the destination block for
a forward link, the private `_col` otherwise. -/
def linkCol (st : BLOCK_LIST) (l : LINK) : Option Int :=
  if forwardsB st l then
    match l.dest with
    | some u => (getBlk st u).col
    | none => none
  else l.colRaw

/-- The `LINK.col` property setter: a non-None, non-negative value on a
link with a destination is stored as the destination block's column,
anything else lands in `_col`. -/
def setLinkCol (st : BLOCK_LIST) (lid : Nat) (v : Option Int) : BLOCK_LIST :=
  let l := getLnk st lid
  match v, l.dest with
  | some c, some du =>
      if 0 ≤ c then setBlk st du { getBlk st du with col := some c }
      else setLnk st lid { l with colRaw := v }
  | _, _ => setLnk st lid { l with colRaw := v }

/-- `BLOCK.add_link` combined with `LINK_LIST.add` (dump_instrs.py lines
124-134 and 220-225): if `addr` is already a key in the source block's
dictionary the existing link object's `dest` is updated in place (and it is
already tracked in `LINK_LIST.links`); otherwise a fresh `LINK` is created
(its constructor runs the `col` setter with `None`, leaving `_col = None`),
stored under `addr` and appended to `LINK_LIST.links`. -/
def addLinkTo (st : BLOCK_LIST) (srcUid : Nat) (addr : Option Nat)
    (destUid : Option Nat) : BLOCK_LIST :=
  let b := getBlk st srcUid
  match b.links.find? (fun e => e.1 == addr) with
  | some e => setLnk st e.2 { getLnk st e.2 with dest := destUid }
  | none =>
      let lid := st.links.length
      let st1 := { st with
        links := st.links ++ [{ addr := addr, src := srcUid, dest := destUid }] }
      setBlk st1 srcUid { b with links := b.links ++ [(addr, lid)] }

/-- `BLOCK_LIST.add_link` with an integer source index and a destination
given as a block (by identifier) or `None`: `self.blocks[src]` raises
IndexError when the position is out of range. -/
def add_link_pos (st : BLOCK_LIST) (srcPos : Nat) (addr : Option Nat)
    (destUid : Option Nat) : Except PyErr BLOCK_LIST :=
  match st.order.get? srcPos with
  | none => .error .indexError
  | some srcUid => .ok (addLinkTo st srcUid addr destUid)

/-- `BLOCK.split_at` (dump_instrs.py lines 95-114): find the first line
whose address equals `addr` (IndexError if none), return the new front
block (fresh `BLOCK` with the old index, empty link dictionary, `_col`
None) and the mutated original object, which keeps the link dictionary and
column, holds the lines from `addr` on, and has its index incremented. -/
def BLOCK.split_at (b : BLOCK) (addr : Nat) : Except PyErr (BLOCK × BLOCK) :=
  match b.lines.findIdx? (fun l => l.addr == addr) with
  | none => .error .indexError
  | some j =>
      .ok ({ idx := b.idx, lines := b.lines.take j },
           { b with idx := b.idx + 1, lines := b.lines.drop j })

/-- The `for block in self.blocks: if block.idx > idx: block.idx += 1`
pass at the top of `BLOCK_LIST.split_block` (a block participates iff it is
still in `self.blocks`, i.e. its identifier occurs in `order`). -/
def splitBump (st : BLOCK_LIST) (bidx : Nat) : BLOCK_LIST :=
  { st with arena := st.arena.mapIdx (fun u b =>
      if st.order.contains u && decide (bidx < b.idx) then
        { b with idx := b.idx + 1 } else b) }

/-- The middle of `BLOCK_LIST.split_block` once the block has been cut:
the new front block enters the arena (fresh object identifier
`st.arena.length`), the original object is overwritten with the tail,
the front is inserted at position `bidx` of `self.blocks`, and every valid
link whose destination is the original object is re-pointed at the front
piece. -/
def splitGraft (st : BLOCK_LIST) (bidx cuid : Nat) (front tail : BLOCK) :
    BLOCK_LIST :=
  { arena := (st.arena ++ [front]).set cuid tail,
    order := st.order.take bidx ++ st.arena.length :: st.order.drop bidx,
    links := st.links.map (fun l =>
      if l.dest == some cuid then { l with dest := some st.arena.length } else l),
    colWidth := st.colWidth,
    numRightCols := st.numRightCols,
    numLeftCols := st.numLeftCols }

/-- `BLOCK_LIST.split_block` (dump_instrs.py lines 263-291).  `bidx` is the
integer index of the block to split (the Python code converts a BLOCK
argument to its `idx` first).  Steps, in source order: bump the index of
every block whose index exceeds `bidx`; fetch `self.blocks[bidx]` and split
it; insert the new front block at position `bidx` and re-point links
(`splitGraft`); add the automatic fall-through link from the front piece to
`self.blocks[tail.idx]`; return `bidx + 1`. -/
def split_block (st : BLOCK_LIST) (bidx : Nat) (addr : Nat) :
    Except PyErr (BLOCK_LIST × Nat) :=
  match (splitBump st bidx).order.get? bidx with
  | none => .error .indexError
  | some cuid =>
      match (getBlk (splitBump st bidx) cuid).split_at addr with
      | .error e => .error e
      | .ok (front, tail) =>
          match (splitGraft (splitBump st bidx) bidx cuid front tail).order.get?
              (getBlk (splitGraft (splitBump st bidx) bidx cuid front tail) cuid).idx with
          | none => .error .indexError
          | some duid =>
              .ok (addLinkTo (splitGraft (splitBump st bidx) bidx cuid front tail)
                     (splitBump st bidx).arena.length
                     (some (getBlk (splitGraft (splitBump st bidx) bidx cuid front tail) cuid).start)
                     (some duid),
                   bidx + 1)

/-- `LINK_LIST.find_active` (dump_instrs.py lines 230-235): the links (by
identifier, in `LINK_LIST` order) `l` with `idx in l` and
`l.dest.col is not None`.  The conjunction short-circuits exactly as in
Python: `idx in l` is false for an invalid link, so `l.dest.col` is only
read when `dest` exists. -/
def find_active (st : BLOCK_LIST) (i : Nat) : List Nat :=
  (List.range st.links.length).filter (fun lid =>
    let l := getLnk st lid
    containsIdx st l i &&
      (match l.dest with
       | some du => ((getBlk st du).col).isSome
       | none => false))

/-- Python `max` over a non-empty list (the `[]` case is unreachable where
this is used, mirroring `max(...)` over the list literal). -/
def maxList : List Int → Int
  | [] => 0
  | h :: t => t.foldl max h

/-- Python `min` over a non-empty list. -/
def minList : List Int → Int
  | [] => 0
  | h :: t => t.foldl min h

/-- Python `range(n)` for an integer `n`, as a list of `Int`: empty when
`n <= 0`. -/
def pyRangeInt (n : Int) : List Int :=
  if n ≤ 0 then [] else (List.range n.toNat).map Int.ofNat

/-- `next(i for i in cands if i not in used)` — `none` models the
`StopIteration` raised when no candidate qualifies. -/
def firstNotIn (cands used : List Int) : Option Int :=
  cands.find? (fun i => !(used.contains i))

/-- The body of `allocate_columns` for one link of the current block
(dump_instrs.py lines 424-445): skip invalid or already-coloured links,
otherwise collect the active links at this block and choose a column,
through the `LINK.col` setter. -/
def allocLink (st : BLOCK_LIST) (buid : Nat) (lid : Nat) :
    Except PyErr BLOCK_LIST :=
  let l := getLnk st lid
  if !l.validB || (linkCol st l).isSome then .ok st
  else
    let activeLinks := find_active st (getBlk st buid).idx
    if forwardsB st l then
      let usedCols := activeLinks.filterMap (fun alid =>
        let a := getLnk st alid
        if forwardsB st a then linkCol st a else none)
      match usedCols with
      | [] => .ok (setLinkCol st lid (some 0))
      | _ =>
          match firstNotIn (pyRangeInt (maxList usedCols + 2)) usedCols with
          | some c => .ok (setLinkCol st lid (some c))
          | none => .error .stopIteration
    else
      let usedCols := activeLinks.filterMap (fun alid =>
        let a := getLnk st alid
        if backwardsB st a then linkCol st a else none)
      match usedCols with
      | [] => .ok (setLinkCol st lid (some (-1)))
      | _ =>
          match firstNotIn (pyRangeInt (minList usedCols - 1)) usedCols with
          | some c => .ok (setLinkCol st lid (some c))
          | none => .error .stopIteration

/-- Inner loop of `allocate_columns`: `for link in block.links.values()`.
The dictionary structure of the current block never changes during column
allocation (only `col`/`_col` fields are written), so folding over the
entry list taken at block entry matches the Python iteration. -/
def allocLinks : BLOCK_LIST → Nat → List (Option Nat × Nat) →
    Except PyErr BLOCK_LIST
  | st, _, [] => .ok st
  | st, buid, e :: rest =>
      match allocLink st buid e.2 with
      | .error er => .error er
      | .ok st1 => allocLinks st1 buid rest

/-- Outer loop of `allocate_columns`: `for block in self.blocks` (the block
list itself is not modified by allocation). -/
def allocBlocks : BLOCK_LIST → List Nat → Except PyErr BLOCK_LIST
  | st, [] => .ok st
  | st, uid :: rest =>
      match allocLinks st uid (getBlk st uid).links with
      | .error e => .error e
      | .ok st1 => allocBlocks st1 rest

/-- `BLOCK_LIST.allocate_columns` (dump_instrs.py lines 416-445):
`self.blocks[0].col = 0` (IndexError on an empty list), then the two
nested loops. -/
def allocate_columns (st : BLOCK_LIST) : Except PyErr BLOCK_LIST :=
  match st.order.head? with
  | none => .error .indexError
  | some u0 =>
      let st1 := setBlk st u0 { getBlk st u0 with col := some 0 }
      allocBlocks st1 st1.order

/-- One entry of the `for addr, link in src.links.items()` loop of
`identify_link_targets` (dump_instrs.py lines 379-405).  `pos` is the
current value of the loop counter `idx`; `srcUid` identifies the `src`
block object.  Skip `None` addresses and already-valid links; otherwise
look for a block starting at the address (linking via `self.add_link(idx,
addr, dest)`, which re-reads `self.blocks[idx]` by position), then for a
block containing it (splitting and linking via the `src` object). -/
def identEntry (st : BLOCK_LIST) (pos : Nat) (srcUid : Nat)
    (e : Option Nat × Nat) : Except PyErr BLOCK_LIST :=
  match e.1 with
  | none => .ok st
  | some a =>
      if (getLnk st e.2).validB then .ok st
      else
        match st.order.find? (fun uid => (getBlk st uid).start == a) with
        | some duid => add_link_pos st pos (some a) (some duid)
        | none =>
            match st.order.find? (fun uid => (getBlk st uid).containsAddr a) with
            | some cuid =>
                match split_block st (getBlk st cuid).idx a with
                | .error er => .error er
                | .ok (st1, dpos) =>
                    match st1.order.get? dpos with
                    | none => .error .indexError
                    | some duid => .ok (addLinkTo st1 srcUid (some a) (some duid))
            | none => .ok st

/-- The `for addr, link in src.links.items()` loop: the entry list is the
snapshot taken when the loop starts.  The body never adds or removes keys
of `src`'s own dictionary (it updates link objects in place and only adds
entries to the dictionaries of freshly created front blocks), so the
snapshot matches the Python iteration. -/
def identEntries : BLOCK_LIST → Nat → Nat → List (Option Nat × Nat) →
    Except PyErr BLOCK_LIST
  | st, _, _, [] => .ok st
  | st, pos, srcUid, e :: rest =>
      match identEntry st pos srcUid e with
      | .error er => .error er
      | .ok st1 => identEntries st1 pos srcUid rest

/-- The `while True` loop of `identify_link_targets`, with explicit fuel
(the Python loop is unbounded; every split enlarges the block list by one,
so the fuel passed by `identify_link_targets` below suffices for every run
this development evaluates). -/
def identLoop : Nat → BLOCK_LIST → Nat → Except PyErr BLOCK_LIST
  | 0, _, _ => .error .fuelExhausted
  | fuel + 1, st, pos =>
      match st.order.get? pos with
      | none => .error .indexError
      | some srcUid =>
          match identEntries st pos srcUid (getBlk st srcUid).links with
          | .error e => .error e
          | .ok st1 =>
              if st1.order.length ≤ pos + 1 then .ok st1
              else identLoop fuel st1 (pos + 1)

/-- `BLOCK_LIST.identify_link_targets` (dump_instrs.py lines 373-411). -/
def identify_link_targets (st : BLOCK_LIST) : Except PyErr BLOCK_LIST :=
  identLoop (st.order.length + st.links.length + 2) st 0

/-- The `for link in self.links` maximum-column loop of `finalize`
(dump_instrs.py lines 321-327).  Reading `link.col` yields a Python value
that `max`/`abs` require to be an int: a `None` column raises TypeError. -/
def maxColsLoop (st : BLOCK_LIST) : List LINK → Int → Int →
    Except PyErr (Int × Int)
  | [], mf, mb => .ok (mf, mb)
  | l :: rest, mf, mb =>
      if forwardsB st l then
        match linkCol st l with
        | none => .error .typeError
        | some c => maxColsLoop st rest (max mf c) mb
      else if backwardsB st l then
        match linkCol st l with
        | none => .error .typeError
        | some c => maxColsLoop st rest mf (max mb |c|)
      else maxColsLoop st rest mf mb

/-- `BLOCK_LIST.finalize` (dump_instrs.py lines 293-338): check the
trailing block (`blocks[-1]` raises IndexError on an empty list; a
non-empty trailing block whose lines are not all decode failures raises a
bare Exception), pop it, run the two assertions, resolve link targets,
allocate columns, compute the column geometry (`max` over an empty
sequence raises ValueError), and give every still-uncoloured block
column 0. -/
def finalize (st : BLOCK_LIST) : Except PyErr BLOCK_LIST :=
  match st.order.getLast? with
  | none => .error .indexError
  | some luid =>
      let lb := getBlk st luid
      if lb.byteLen ≠ 0 && !(lb.lines.all (fun l => l.op.isNone)) then
        .error .exception
      else
        let st1 : BLOCK_LIST := { st with order := st.order.dropLast }
        if !(st1.order.all (fun u => decide (0 < (getBlk st1 u).byteLen))) then
          .error .assertError
        else if !((List.range st1.order.length).all (fun i =>
            (getBlk st1 (st1.order.getD i 0)).idx == i)) then
          .error .assertError
        else
          match identify_link_targets st1 with
          | .error e => .error e
          | .ok st2 =>
              match allocate_columns st2 with
              | .error e => .error e
              | .ok st3 =>
                  match st3.order.map (fun u => (getBlk st3 u).dispWidth) with
                  | [] => .error .valueError
                  | w :: ws =>
                      match maxColsLoop st3 st3.links 0 0 with
                      | .error e => .error e
                      | .ok (mf, mb) =>
                          let st4 : BLOCK_LIST := { st3 with
                            colWidth := ws.foldl max w,
                            numRightCols := mf + 1,
                            numLeftCols := mb }
                          .ok { st4 with
                            arena := st4.arena.mapIdx (fun u b =>
                              if st4.order.contains u && b.col == none then
                                { b with col := some 0 }
                              else b) }

/-- The builder's starting state: `blocks = BLOCK_LIST();
blocks.add(BLOCK(idx))` with `idx = 0`. -/
def buildInit : BLOCK_LIST :=
  { arena := [{ idx := 0, lines := [] }], order := [0], links := [] }

/-- `blocks[idx].add(line)`: append a line to the block at position `idx`
(IndexError if the position is out of range, which never happens in the
builder since `idx` always names the last block). -/
def addLineAt (st : BLOCK_LIST) (pos : Nat) (line : LINE) :
    Except PyErr BLOCK_LIST :=
  match st.order.get? pos with
  | none => .error .indexError
  | some uid =>
      .ok (setBlk st uid
        { getBlk st uid with lines := (getBlk st uid).lines ++ [line] })

/-- Lower-case hex rendering of a call target. -/
def natHex (n : Nat) : String :=
  String.mk (Nat.toDigits 16 n)

/-- The comment attached to a call line (dump_instrs.py lines 490-503).
The `glob.glob('*_%x.bin' % call_tgt)` lookup is filesystem I/O outside
this embedding; the modelled run takes the IndexError fallback branch that
synthesizes the `sub_<addr>.txt` name. -/
def callComment : Option Nat → String
  | some tgt => "    ; CALL sub_" ++ natHex tgt ++ ".txt"
  | none => "    ; CALL"

/-- One iteration of the `while lines:` loop of `decode_blocks`
(dump_instrs.py lines 483-526): classify the line's targets, attach the
call annotation, append the line to the current block, and, when a branch
or return target is present, record the fall-through and branch/return
edges and open a new block. -/
def buildStep (st : BLOCK_LIST) (idx : Nat) (line : LINE) :
    Except PyErr (BLOCK_LIST × Nat) :=
  match get_op_targets line.op with
  | none =>
      match addLineAt st idx line with
      | .error e => .error e
      | .ok st1 => .ok (st1, idx)
  | some tgts =>
      let line1 := match tgts.call with
        | some callTgt => { line with comment := callComment callTgt }
        | none => line
      match addLineAt st idx line1 with
      | .error e => .error e
      | .ok st1 =>
          if tgts.branch.isSome || tgts.ret.isSome then
            let r1 : Except PyErr BLOCK_LIST :=
              match tgts.fall with
              | some fallTgt => add_link_pos st1 idx fallTgt none
              | none => .ok st1
            match r1 with
            | .error e => .error e
            | .ok st2 =>
                let r2 : Except PyErr BLOCK_LIST :=
                  match tgts.branch with
                  | some brTgt => add_link_pos st2 idx brTgt none
                  | none => add_link_pos st2 idx (tgts.ret.getD none) none
                match r2 with
                | .error e => .error e
                | .ok st3 =>
                    .ok ({ st3 with
                      arena := st3.arena ++ [{ idx := idx + 1, lines := [] }],
                      order := st3.order ++ [st3.arena.length] }, idx + 1)
          else .ok (st1, idx)

/-- The `while lines:` loop of `decode_blocks`. -/
def buildLoop : List LINE → BLOCK_LIST → Nat → Except PyErr (BLOCK_LIST × Nat)
  | [], st, idx => .ok (st, idx)
  | line :: rest, st, idx =>
      match buildStep st idx line with
      | .error e => .error e
      | .ok (st1, idx1) => buildLoop rest st1 idx1

/-- `decode_blocks` from the point where the decoded line list is in hand
(dump_instrs.py lines 475-529 minus the `decode_lines` call): run the
block-building loop on the lines, then `finalize`. -/
def build_blocks (lines : List LINE) : Except PyErr BLOCK_LIST :=
  match buildLoop lines buildInit 0 with
  | .error e => .error e
  | .ok (st, _) => finalize st

/-- Python values bound in a local scope, as far as `decode_lines` needs
them. -/
inductive PyVal where
  | vStr : String → PyVal
  | vNat : Nat → PyVal
  | vBool : Bool → PyVal
  | vNone : PyVal
  | vEmu : PyVal
  | vFile : PyVal
deriving DecidableEq, Repr

/-- The local names bound in `decode_lines` at the moment line 453
(`if end is None:`) executes: the six parameters, `emu` from `vwopen`
(the `_` placeholder binds the discarded workspace), and the open file
object `f`.  The name `end` is not among them, and `end` is neither a
Python builtin nor a global of dump_instrs.py. -/
def decodeLinesScope (in_file : String) (va : Nat) (arch : Option String)
    (vle : Bool) (offset : Nat) (size : Option Nat) : List (String × PyVal) :=
  [("in_file", .vStr in_file), ("va", .vNat va),
   ("arch", match arch with | some a => .vStr a | none => .vNone),
   ("vle", .vBool vle), ("offset", .vNat offset),
   ("size", match size with | some s => .vNat s | none => .vNone),
   ("emu", .vEmu), ("f", .vFile)]

/-- `decode_lines` (dump_instrs.py lines 448-472).  After `vwopen`, opening
the input file and seeking to `offset`, the first statement of the
generator body evaluates the name `end`; the lookup in the local scope
decides what happens.  The `some` branch is dead: `end` is never bound, so
the generator raises NameError before its first `yield`, and the decoding
loop below line 453 (which would call the external vivisect decoder) is
unreachable. -/
def decode_lines (in_file : String) (va : Nat) (arch : Option String)
    (vle : Bool) (offset : Nat) (size : Option Nat) : Except PyErr (List LINE) :=
  match (decodeLinesScope in_file va arch vle offset size).lookup "end" with
  | none => .error .nameError
  | some _ => .ok []

/-- `decode_blocks` (dump_instrs.py lines 475-529): materialize
`decode_lines` into a list (propagating any exception it raises), then run
the block-building loop and `finalize`. -/
def decode_blocks (in_file : String) (va : Nat) (arch : Option String)
    (vle : Bool) (offset : Nat) (size : Option Nat) : Except PyErr BLOCK_LIST :=
  match decode_lines in_file va arch vle offset size with
  | .error e => .error e
  | .ok ls => build_blocks ls

/-- The fate of the output stream opened by `decode_file`: whether a real
file was opened (`out_file` given, as opposed to stdout) and whether
`outfd.close()` ran. -/
structure OutStream where
  opened : Bool
  closed : Bool
deriving DecidableEq, Repr

/-- `decode_file` (dump_instrs.py lines 666-782) as far as control flow and
the output stream are concerned.  When `out_file` is given the stream is
opened with `open(out_file, 'w')` before `decode_blocks` runs; there is no
try/finally, so an exception raised by `decode_blocks` (or by the
rendering below it) propagates out of `decode_file` without reaching the
`outfd.close()` call on line 782, leaving the stream open.  Only when
control falls off the end of the rendering loops does the close run (and
only for a real file, not stdout).  The rendering loops are reachable only
when `decode_blocks` returns normally; their text output is not
modelled. -/
def decode_file (in_file : String) (out_file : Option String) (va : Nat)
    (arch : Option String) (vle : Bool) (offset : Nat) (size : Option Nat) :
    Except PyErr Unit × OutStream :=
  let archD := match arch with | none => some "ppc32-embedded" | some a => some a
  let isFile := out_file.isSome
  match decode_blocks in_file va archD vle offset size with
  | .error e => (.error e, { opened := isFile, closed := false })
  | .ok _ => (.ok (), { opened := isFile, closed := isFile })

/-! ### Concrete states and spec-side definitions used by the theorems -/

/-- A decoded non-branching instruction: `getBranches()` of a plain
(non-control-transfer) vivisect opcode returns the fall-through branch
`[(va + size, BR_FALL)]`. -/
def nopOp (next : Nat) : Op :=
  { size := 4, branches := [(some next, BR_FALL)] }

/-- A decoded unconditional PPC branch: one branch to the target with
architecture-transfer flags and no `BR_PROC` bit (vivisect only sets
`BR_PROC` on calls). -/
def brOp (tgt : Nat) : Op :=
  { size := 4, branches := [(some tgt, BR_ARCH)] }

/-- A decoded call instruction: vivisect marks the called address with
`BR_PROC`. -/
def callOp (tgt : Nat) : Op :=
  { size := 4, branches := [(some (tgt + 4), BR_FALL), (some tgt, BR_PROC)] }

/-- The target dictionary `get_op_targets` produces for `callOp 0x500`. -/
def callTargetsEx : Targets :=
  { call := some (some 0x500) }

/-- The spec's 3-line scenario stream: `NOP @0x100 (size 4)`,
`BRANCH @0x104 → 0x10C (size 4)`, `NOP @0x10C (size 4)`. -/
def scenario3 : List LINE :=
  [ { addr := 0x100, size := 4, op := some (nopOp 0x104) },
    { addr := 0x104, size := 4, op := some (brOp 0x10C) },
    { addr := 0x10C, size := 4, op := some (nopOp 0x110) } ]

/-- A single decoded NOP line at 0x100. -/
def nopLine100 : LINE :=
  { addr := 0x100, size := 4, op := some (nopOp 0x104) }

/-- A line with no decoded op, used in hand-built block lists. -/
def mkLine (a : Nat) : LINE :=
  { addr := a, size := 4, width := 1 }

/-- Four single-line blocks where block 3 carries two backward links, one
to block 0 and one to block 1 (the shape `decode_blocks` produces for a
block ending in a conditional branch: a fall-through edge plus a branch
edge, here both already resolved to earlier blocks). -/
def stC8 : BLOCK_LIST :=
  { arena := [ { idx := 0, lines := [mkLine 0x100] },
               { idx := 1, lines := [mkLine 0x104] },
               { idx := 2, lines := [mkLine 0x108] },
               { idx := 3, lines := [mkLine 0x10C],
                 links := [(some 0x100, 0), (some 0x104, 1)] } ],
    order := [0, 1, 2, 3],
    links := [ { addr := some 0x100, src := 3, dest := some 0 },
               { addr := some 0x104, src := 3, dest := some 1 } ] }

/-- Four single-line blocks with two backward links whose active ranges
overlap (block 2 → block 0 and block 3 → block 1). -/
def stC7 : BLOCK_LIST :=
  { arena := [ { idx := 0, lines := [mkLine 0x100] },
               { idx := 1, lines := [mkLine 0x104] },
               { idx := 2, lines := [mkLine 0x108],
                 links := [(some 0x100, 0)] },
               { idx := 3, lines := [mkLine 0x10C],
                 links := [(some 0x104, 1)] } ],
    order := [0, 1, 2, 3],
    links := [ { addr := some 0x100, src := 2, dest := some 0 },
               { addr := some 0x104, src := 3, dest := some 1 } ] }

/-- Three single-line blocks with one backward link from block 2 to
block 0. -/
def stC9 : BLOCK_LIST :=
  { arena := [ { idx := 0, lines := [mkLine 0x100] },
               { idx := 1, lines := [mkLine 0x104] },
               { idx := 2, lines := [mkLine 0x108],
                 links := [(some 0x100, 0)] } ],
    order := [0, 1, 2],
    links := [ { addr := some 0x100, src := 2, dest := some 0 } ] }

/-- The spec's notion of an edge being active at block index `i`, taken
verbatim from the claim:
`min(src.index, dest.index) <= i < max(src.index, dest.index)`. -/
def spec_active (st : BLOCK_LIST) (l : LINK) (i : Nat) : Bool :=
  decide (min (srcIdx st l) (destIdx st l) ≤ i) &&
  decide (i < max (srcIdx st l) (destIdx st l))

/-- Every block reachable from the block list holds at least one line. -/
def AllNonempty (st : BLOCK_LIST) : Prop :=
  ∀ uid ∈ st.order, (getBlk st uid).lines ≠ []

/-- A well-formed post-builder state for the non-empty invariant: one
single-line block followed by the empty trailing block the builder always
leaves behind. -/
def stW : BLOCK_LIST :=
  { arena := [ { idx := 0, lines := [mkLine 0x100] },
               { idx := 1, lines := [] } ],
    order := [0, 1], links := [] }

/-- The value `finalize` returns on `stW`. -/
def stWfin : BLOCK_LIST :=
  { arena := [ { idx := 0, lines := [mkLine 0x100], col := some 0 },
               { idx := 1, lines := [] } ],
    order := [0], links := [],
    colWidth := 1, numRightCols := 1, numLeftCols := 0 }

/-- A block list whose first kept block is empty (an internal-consistency
violation for the finalizer to flag). -/
def stWbad : BLOCK_LIST :=
  { arena := [ { idx := 0, lines := [] },
               { idx := 1, lines := [mkLine 0x104] } ],
    order := [0, 1], links := [] }

/-- A two-line block: the C6 counterexample splits it at 0x102, an address
strictly inside its range that is not an instruction start. -/
def blkC6 : BLOCK :=
  { idx := 0, lines := [mkLine 0x100, mkLine 0x104] }

/-- Input for the C6 witness: block 1 (two contiguous lines at 0x104 and
0x108) is split at 0x108; link 0 is an edge resolved to block 1, targeting
its start. -/
def stC6w : BLOCK_LIST :=
  { arena := [ { idx := 0, lines := [mkLine 0x100],
                 links := [(some 0x104, 0)] },
               { idx := 1, lines := [mkLine 0x104, mkLine 0x108] } ],
    order := [0, 1],
    links := [ { addr := some 0x104, src := 0, dest := some 1 } ] }

/-- The front piece `BLOCK.split_at` produces when cutting `C` before line
index `j`. -/
def splitFrontPiece (C : BLOCK) (j : Nat) : BLOCK :=
  { idx := C.idx, lines := C.lines.take j }

/-- The tail piece (the mutated original object) after cutting `C` before
line index `j`. -/
def splitTailPiece (C : BLOCK) (j : Nat) : BLOCK :=
  { C with idx := C.idx + 1, lines := C.lines.drop j }

/-- Everything splitting block `cuid` (sitting at position `i`) at address
`T` is supposed to do, per the claim: the produced pieces hold disjoint
line sets that concatenate to the original lines, their ranges are
contiguous at `T` and together cover the original range, the front piece
keeps the old index while the tail gets the next one and all later blocks
are shifted up, and every edge previously resolved to the block is
re-pointed at the piece holding its target address (the front piece: a
resolved edge targets its destination's start). -/
def SplitSpec (st : BLOCK_LIST) (i T cuid : Nat) : Prop :=
  ∃ st1, split_block st i T = .ok (st1, i + 1) ∧
    (getBlk st1 st.arena.length).lines ++ (getBlk st1 cuid).lines =
      (getBlk st cuid).lines ∧
    (getBlk st1 st.arena.length).lines ≠ [] ∧
    (getBlk st1 cuid).lines ≠ [] ∧
    (∀ l1 ∈ (getBlk st1 st.arena.length).lines, l1.addr < T) ∧
    (∀ l2 ∈ (getBlk st1 cuid).lines, T ≤ l2.addr) ∧
    (getBlk st1 st.arena.length).start = (getBlk st cuid).start ∧
    (getBlk st1 st.arena.length).stop = T ∧
    (getBlk st1 cuid).start = T ∧
    (getBlk st1 cuid).stop = (getBlk st cuid).stop ∧
    (getBlk st1 st.arena.length).idx = i ∧
    (getBlk st1 cuid).idx = i + 1 ∧
    (∀ v ∈ st.order, v ≠ cuid →
      (getBlk st1 v).idx =
        if i < (getBlk st v).idx then (getBlk st v).idx + 1
        else (getBlk st v).idx) ∧
    (∀ lid < st.links.length, (getLnk st lid).dest = some cuid →
      (getLnk st1 lid).dest = some st.arena.length ∧
      (getLnk st1 lid).addr = some ((getBlk st1 st.arena.length).start))

/-- The state `allocate_columns` returns on `stC7`: block 0 gets column 0,
and both backward links end up in lane `-1` even though their active
ranges overlap. -/
def stC7done : BLOCK_LIST :=
  { arena := [ { idx := 0, lines := [mkLine 0x100], col := some 0 },
               { idx := 1, lines := [mkLine 0x104] },
               { idx := 2, lines := [mkLine 0x108],
                 links := [(some 0x100, 0)] },
               { idx := 3, lines := [mkLine 0x10C],
                 links := [(some 0x104, 1)] } ],
    order := [0, 1, 2, 3],
    links := [ { addr := some 0x100, src := 2, dest := some 0,
                 colRaw := some (-1) },
               { addr := some 0x104, src := 3, dest := some 1,
                 colRaw := some (-1) } ] }

/-- Column allocation only writes `col`/`_col` fields: the block order,
the link arena length, every block's `idx` and link dictionary and every
link's `addr`/`src`/`dest` are those of the starting state. -/
def SameSkel (st0 st : BLOCK_LIST) : Prop :=
  st.order = st0.order ∧
  st.links.length = st0.links.length ∧
  st.arena.length = st0.arena.length ∧
  (∀ v, (getBlk st v).idx = (getBlk st0 v).idx) ∧
  (∀ v, (getBlk st v).links = (getBlk st0 v).links) ∧
  (∀ j, (getLnk st j).addr = (getLnk st0 j).addr ∧
    (getLnk st j).src = (getLnk st0 j).src ∧
    (getLnk st j).dest = (getLnk st0 j).dest)

/-- A column, once assigned, is never changed: every block column and
every stored `_col` survives into the later state with the same value. -/
def ColMono (st st' : BLOCK_LIST) : Prop :=
  (∀ u c, (getBlk st u).col = some c → (getBlk st' u).col = some c) ∧
  (∀ j c, (getLnk st j).colRaw = some c → (getLnk st' j).colRaw = some c)

/-- The inductive invariant of the `allocate_columns` sweep when the outer
loop is about to process the block at position `p`: assigned block columns
are non-negative, stored `_col`s are `-1` (only backward links write
them), links whose column is still unassigned start at or after `p`, every
coloured forward link has a same-destination forward witness whose source
is at or before `p`, and coloured forward links with different
destinations and overlapping active ranges carry different columns. -/
def AllocInv (st : BLOCK_LIST) (p : Nat) : Prop :=
  (∀ u ∈ st.order, ∀ c, (getBlk st u).col = some c → 0 ≤ c) ∧
  (∀ j, j < st.links.length →
    (getLnk st j).colRaw = none ∨ (getLnk st j).colRaw = some (-1)) ∧
  (∀ j, j < st.links.length → forwardsB st (getLnk st j) = true →
    linkCol st (getLnk st j) = none → p ≤ srcIdx st (getLnk st j)) ∧
  (∀ j, j < st.links.length → backwardsB st (getLnk st j) = true →
    (getLnk st j).colRaw = none → p ≤ srcIdx st (getLnk st j)) ∧
  (∀ j, j < st.links.length → forwardsB st (getLnk st j) = true →
    (linkCol st (getLnk st j)).isSome = true →
    ∃ j0, j0 < st.links.length ∧ forwardsB st (getLnk st j0) = true ∧
      (getLnk st j0).dest = (getLnk st j).dest ∧
      srcIdx st (getLnk st j0) ≤ p) ∧
  (∀ j k, j < st.links.length → k < st.links.length →
    forwardsB st (getLnk st j) = true → forwardsB st (getLnk st k) = true →
    (getLnk st j).dest ≠ (getLnk st k).dest →
    srcIdx st (getLnk st j) < destIdx st (getLnk st k) →
    srcIdx st (getLnk st k) < destIdx st (getLnk st j) →
    ∀ cj ck, linkCol st (getLnk st j) = some cj →
      linkCol st (getLnk st k) = some ck → cj ≠ ck)

/-- A coherent pre-allocation state, i.e. what `identify_link_targets`
followed by `finalize`'s index-rewrite hands to `allocate_columns`: block
positions and `idx` fields agree, link endpoints refer to live blocks,
every dictionary entry is a link of the arena owned by that source block,
every valid link is registered in its source block's dictionary, and no
column has been assigned yet. -/
@[reducible] def Coherent (st : BLOCK_LIST) : Prop :=
  (∀ p, p < st.order.length →
    st.order.getD p 0 < st.arena.length ∧
    (getBlk st (st.order.getD p 0)).idx = p) ∧
  (∀ lid, lid < st.links.length →
    (getLnk st lid).src ∈ st.order ∧
    (getLnk st lid).dest.all (fun du => st.order.contains du) = true) ∧
  (∀ uid ∈ st.order, ∀ e ∈ (getBlk st uid).links,
    e.2 < st.links.length ∧ (getLnk st e.2).src = uid) ∧
  (∀ lid, lid < st.links.length → (getLnk st lid).validB = true →
    ((getLnk st lid).addr, lid) ∈ (getBlk st (getLnk st lid).src).links) ∧
  (∀ uid ∈ st.order, (getBlk st uid).col = none) ∧
  (∀ lid, lid < st.links.length → (getLnk st lid).colRaw = none)

/-! ### Helper lemmas -/

/-- One `get_op_targets` loop iteration never touches the FALL, BRANCH or
RET keys: the first inner case repeats the outer guard, so a branch that
enters the loop body always lands in the CALL case. -/
theorem targetsStep_only_call (t : Targets) (br : Option Nat × Nat) :
    (targetsStep t br).fall = t.fall ∧ (targetsStep t br).branch = t.branch ∧
    (targetsStep t br).ret = t.ret := by
  unfold targetsStep
  split
  · rename_i h
    simp [if_pos h]
  · exact ⟨rfl, rfl, rfl⟩

theorem foldl_targetsStep_only_call (brs : List (Option Nat × Nat)) :
    ∀ t0 : Targets,
      ((brs.foldl targetsStep t0).fall = t0.fall ∧
       (brs.foldl targetsStep t0).branch = t0.branch ∧
       (brs.foldl targetsStep t0).ret = t0.ret) := by
  induction brs with
  | nil => intro t0; exact ⟨rfl, rfl, rfl⟩
  | cons br rest ih =>
      intro t0
      simp only [List.foldl_cons]
      obtain ⟨h1, h2, h3⟩ := targetsStep_only_call t0 br
      obtain ⟨g1, g2, g3⟩ := ih (targetsStep t0 br)
      exact ⟨g1.trans h1, g2.trans h2, g3.trans h3⟩

/-- The dictionary returned by `get_op_targets` holds at most the CALL
key. -/
theorem get_op_targets_no_block_end (op : Option Op) (t : Targets)
    (h : get_op_targets op = some t) :
    t.fall = none ∧ t.branch = none ∧ t.ret = none := by
  cases op with
  | none => cases h
  | some o =>
      simp only [get_op_targets, Option.some.injEq] at h
      subst h
      exact foldl_targetsStep_only_call o.branches {}

/-- `setBlk` leaves `order` and `links` unchanged. -/
theorem setBlk_order (st : BLOCK_LIST) (u : Nat) (b : BLOCK) :
    (setBlk st u b).order = st.order ∧ (setBlk st u b).links = st.links :=
  ⟨rfl, rfl⟩

/-- A successful `addLineAt` leaves `order` unchanged. -/
theorem addLineAt_order (st : BLOCK_LIST) (pos : Nat) (line : LINE)
    (st1 : BLOCK_LIST) (h : addLineAt st pos line = .ok st1) :
    st1.order = st.order := by
  unfold addLineAt at h
  split at h
  · cases h
  · cases h; rfl

/-- One builder iteration on real decoder output neither changes the block
list nor advances `idx`: the targets of any decodable line never contain
BRANCH or RET, so the block-ending branch of the loop body is dead. -/
theorem buildStep_no_new_block (st : BLOCK_LIST) (idx : Nat) (line : LINE)
    (st1 : BLOCK_LIST) (idx1 : Nat) (h : buildStep st idx line = .ok (st1, idx1)) :
    st1.order = st.order ∧ idx1 = idx := by
  unfold buildStep at h
  split at h
  · -- tgts is None
    split at h
    · cases h
    · rename_i st2 hadd
      cases h
      exact ⟨addLineAt_order _ _ _ _ hadd, rfl⟩
  · -- tgts is Some
    rename_i tgts htgts
    obtain ⟨-, hbr, hret⟩ := get_op_targets_no_block_end line.op tgts htgts
    rw [hbr, hret] at h
    simp only [Option.isSome_none, Bool.or_self, Bool.false_eq_true, if_false] at h
    split at h
    · cases h
    · rename_i st2 hadd
      cases h
      exact ⟨addLineAt_order _ _ _ _ hadd, rfl⟩

/-- Over a whole run of the builder loop the block list and the index are
unchanged. -/
theorem buildLoop_no_new_block (lines : List LINE) :
    ∀ st idx st1 idx1, buildLoop lines st idx = .ok (st1, idx1) →
      st1.order = st.order ∧ idx1 = idx := by
  induction lines with
  | nil => intro st idx st1 idx1 h; cases h; exact ⟨rfl, rfl⟩
  | cons line rest ih =>
      intro st idx st1 idx1 h
      unfold buildLoop at h
      split at h
      · cases h
      · rename_i st2 idx2 hstep
        obtain ⟨h1, h2⟩ := buildStep_no_new_block st idx line st2 idx2 hstep
        obtain ⟨g1, g2⟩ := ih st2 idx2 st1 idx1 h
        exact ⟨g1.trans h1, g2.trans h2⟩

/-! ### The claims -/

/-- C1: for every input file and every combination of `va`, `arch`, `vle`,
`offset` and `size`, `decode_lines` raises NameError before yielding any
line, because it reads the never-defined name `end`; consequently every
`decode_blocks` and `decode_file` invocation that goes through it fails
with the same NameError. -/
theorem C1_decode_lines_always_name_error
    (in_file : String) (out_file : Option String) (va : Nat)
    (arch : Option String) (vle : Bool) (offset : Nat) (size : Option Nat) :
    decode_lines in_file va arch vle offset size = .error .nameError ∧
    decode_blocks in_file va arch vle offset size = .error .nameError ∧
    (decode_file in_file out_file va arch vle offset size).1 =
      .error .nameError := by
  refine ⟨rfl, rfl, ?_⟩
  cases arch <;> rfl

/-- C2: the mapping returned by `get_op_targets` on a decoded instruction
contains at most the CALL key — never FALL, BRANCH or RET — because the
outer `bflags & envi.BR_PROC` guard is re-tested as the first inner case;
consequently the block builder, which ends blocks only when BRANCH or RET
is present, never ends a block: across any run of its loop the block list
keeps its single initial block. -/
theorem C2_only_call_never_ends_block :
    (∀ op t, get_op_targets op = some t →
       t.fall = none ∧ t.branch = none ∧ t.ret = none) ∧
    (∀ lines st idx, buildLoop lines buildInit 0 = .ok (st, idx) →
       st.order.length = 1 ∧ idx = 0) := by
  constructor
  · exact get_op_targets_no_block_end
  · intro lines st idx h
    obtain ⟨h1, h2⟩ := buildLoop_no_new_block lines buildInit 0 st idx h
    exact ⟨by rw [h1]; rfl, h2⟩

/-- Witness for C2 at concrete inputs: a call instruction's dictionary and
an actual builder run. -/
theorem C2_witness :
    (callTargetsEx.fall = none ∧ callTargetsEx.branch = none ∧
     callTargetsEx.ret = none) ∧
    buildInit.order.length = 1 :=
  ⟨(C2_only_call_never_ends_block).1 (some (callOp 0x500)) callTargetsEx rfl,
   ((C2_only_call_never_ends_block).2 [] buildInit 0 rfl).1⟩

/-- C3, counterexample: on the spec's 3-line scenario stream the code does
not produce a finalized block list at all — `get_op_targets` classifies the
branch as having no BRANCH target (its flags lack `BR_PROC`), so no block
ever ends, and `finalize` raises the bare `Exception` reserved for a
trailing block holding decoded instructions.  The claimed outcome (two
blocks with a forward edge) is therefore false at this input. -/
theorem C3_counterexample :
    build_blocks scenario3 = Except.error PyErr.exception := by
  rfl

/-- C3, amended: on the 3-line scenario stream the builder leaves all three
lines in the single initial block, records no edge, and finalization
aborts with the internal-consistency `Exception` instead of producing two
blocks. -/
theorem C3_amended_single_block_then_exception :
    ∃ st, buildLoop scenario3 buildInit 0 = .ok (st, 0) ∧
      st.order.length = 1 ∧
      (getBlk st 0).lines.map LINE.addr = [0x100, 0x104, 0x10C] ∧
      st.links = [] ∧
      build_blocks scenario3 = .error .exception := by
  exact ⟨_, rfl, rfl, rfl, rfl, rfl⟩

/-- C4, counterexample: for the one-line stream `[NOP @0x100]` building and
finalizing does not yield a block list whose ranges could be compared with
the line ranges — `finalize` raises `Exception` because the lone block is
the trailing block and holds a decoded instruction.  The claimed partition
equality is therefore false at this input (there is no finalized output at
all). -/
theorem C4_counterexample :
    build_blocks [nopLine100] = Except.error PyErr.exception := by
  rfl

/-- The resolver errors immediately on an empty block list: `self.blocks[idx]`
with `idx = 0` raises IndexError. -/
theorem identLoop_nil (fuel : Nat) (st : BLOCK_LIST) (pos : Nat)
    (h : st.order = []) :
    identLoop (fuel + 1) st pos = .error .indexError := by
  unfold identLoop
  rw [h]
  rfl

/-- `finalize` on a one-block list always raises: either the single block
is a rejected non-data trailing block, or it is popped and the resolver
immediately hits `self.blocks[0]` on the now-empty list. -/
theorem finalize_single_errors (st : BLOCK_LIST) (u : Nat)
    (h : st.order = [u]) :
    ∃ e, finalize st = Except.error e := by
  have hlast : st.order.getLast? = some u := by rw [h]; rfl
  have hident : identify_link_targets { st with order := st.order.dropLast } =
      Except.error .indexError := by
    unfold identify_link_targets
    have hdrop : ({ st with order := st.order.dropLast } : BLOCK_LIST).order = [] := by
      simp only [h]
      rfl
    rw [hdrop]
    exact identLoop_nil _ _ _ hdrop
  unfold finalize
  rw [hlast]
  dsimp only
  split
  · exact ⟨.exception, rfl⟩
  · split
    · exact ⟨.assertError, rfl⟩
    · split
      · exact ⟨.assertError, rfl⟩
      · rw [hident]
        exact ⟨.indexError, rfl⟩

/-- C4, amended: no input line stream ever reaches a finalized partition —
for every stream, building and finalizing raises an exception (the
classifier never reports a BRANCH or RET target, so all lines accumulate
in the single initial block, which `finalize` then either rejects as a
non-data trailing block or pops, after which the resolver hits an empty
block list). -/
theorem C4_amended_never_finalizes (lines : List LINE) :
    ∃ e, build_blocks lines = Except.error e := by
  unfold build_blocks
  cases hloop : buildLoop lines buildInit 0 with
  | error e => exact ⟨e, rfl⟩
  | ok p =>
      obtain ⟨st, idx⟩ := p
      obtain ⟨horder, -⟩ := buildLoop_no_new_block lines buildInit 0 st idx hloop
      exact finalize_single_errors st 0 horder

/-- C8, failing input: block 3 of `stC8` ends in two backward links (to
blocks 0 and 1).  After the first is laned at −1, laning the second
evaluates `next(i for i in range(min(used_cols)-1) if i not in used_cols)`
with `min(used_cols) = -1`; `range(-2)` is empty, so the allocator raises
StopIteration instead of choosing −2 as the claim describes. -/
theorem C8_backward_lane_stop_iteration :
    allocate_columns stC8 = Except.error PyErr.stopIteration := by
  rfl

/-- C9, counterexample: the backward link of `stC9` runs from block index 2
to block index 0.  `LINK.__contains__` reports it active at block index 2
(the larger endpoint), while the claimed formula
`min(src.index, dest.index) <= i < max(src.index, dest.index)` rejects
`i = 2`. -/
theorem C9_counterexample :
    containsIdx stC9 (getLnk stC9 0) 2 = true ∧
    spec_active stC9 (getLnk stC9 0) 2 = false := by
  decide

/-- C9, amended: forward edges are active exactly on the half-open interval
`min <= i < max` of the claim, but backward edges are active on the closed
interval `min <= i <= max` — in particular a backward edge is active at the
larger of its two endpoint indices. -/
theorem C9_amended_backward_range_inclusive (st : BLOCK_LIST) (l : LINK) (i : Nat) :
    containsIdx st l i = true ↔
      (forwardsB st l = true ∧
        min (srcIdx st l) (destIdx st l) ≤ i ∧
        i < max (srcIdx st l) (destIdx st l)) ∨
      (backwardsB st l = true ∧
        min (srcIdx st l) (destIdx st l) ≤ i ∧
        i ≤ max (srcIdx st l) (destIdx st l)) := by
  cases hq : l.validB with
  | false =>
      have hf : forwardsB st l = false := by simp [forwardsB, hq]
      have hb : backwardsB st l = false := by simp [backwardsB, hq]
      simp [containsIdx, hf, hb]
  | true =>
      by_cases hlt : srcIdx st l < destIdx st l
      · have hf : forwardsB st l = true := by simp [forwardsB, hq, hlt]
        have hb : backwardsB st l = false := by
          simp only [backwardsB, hq, Bool.true_and, decide_eq_false_iff_not]
          omega
        have hmin : min (srcIdx st l) (destIdx st l) = srcIdx st l := by omega
        have hmax : max (srcIdx st l) (destIdx st l) = destIdx st l := by omega
        have hci : containsIdx st l i =
            (decide (srcIdx st l ≤ i) && decide (i < destIdx st l)) := by
          unfold containsIdx
          rw [hf, hb]
          cases h1 : decide (srcIdx st l ≤ i) <;>
            cases h2 : decide (i < destIdx st l) <;> simp
        rw [hci, hf, hb, hmin, hmax]
        simp only [Bool.and_eq_true, decide_eq_true_eq]
        constructor
        · rintro ⟨h1, h2⟩
          exact Or.inl ⟨by trivial, h1, h2⟩
        · rintro (⟨-, h1, h2⟩ | ⟨hfb, -⟩)
          · exact ⟨h1, h2⟩
          · cases hfb
      · have hf : forwardsB st l = false := by
          simp only [forwardsB, hq, Bool.true_and, decide_eq_false_iff_not]
          omega
        have hb : backwardsB st l = true := by
          simp only [backwardsB, hq, Bool.true_and, decide_eq_true_eq]
          omega
        have hmin : min (srcIdx st l) (destIdx st l) = destIdx st l := by omega
        have hmax : max (srcIdx st l) (destIdx st l) = srcIdx st l := by omega
        have hci : containsIdx st l i =
            (decide (i ≤ srcIdx st l) && decide (destIdx st l ≤ i)) := by
          unfold containsIdx
          rw [hf, hb]
          cases h1 : decide (i ≤ srcIdx st l) <;>
            cases h2 : decide (destIdx st l ≤ i) <;> simp
        rw [hci, hf, hb, hmin, hmax]
        simp only [Bool.and_eq_true, decide_eq_true_eq]
        constructor
        · rintro ⟨h1, h2⟩
          exact Or.inr ⟨by trivial, h2, h1⟩
        · rintro (⟨hfb, -⟩ | ⟨-, h1, h2⟩)
          · cases hfb
          · exact ⟨h2, h1⟩

/-- C10, counterexample: a concrete invocation with an output file — the
NameError from `decode_lines` propagates out of `decode_file` and the
opened stream is never closed, contradicting the claim that the stream is
closed on every exit path. -/
theorem C10_counterexample :
    decode_file "firmware.bin" (some "out.txt") 0 none false 0 none =
      (Except.error PyErr.nameError, { opened := true, closed := false }) := by
  rfl

/-- C10, amended: `decode_file` closes the output stream only when control
reaches the end of rendering normally; with no try/finally, any exception
after the open leaves the stream unclosed — and at present every
invocation with an output file aborts with the `decode_lines` NameError
and returns with the stream still open. -/
theorem C10_amended_stream_left_open (in_file out_file : String) (va : Nat)
    (arch : Option String) (vle : Bool) (offset : Nat) (size : Option Nat) :
    decode_file in_file (some out_file) va arch vle offset size =
      (Except.error PyErr.nameError, { opened := true, closed := false }) := by
  cases arch <;> rfl

/-! ### Arena access lemmas -/

theorem getBlk_setBlk (st : BLOCK_LIST) (u : Nat) (b : BLOCK) (v : Nat) :
    getBlk (setBlk st u b) v =
      if u = v ∧ u < st.arena.length then b else getBlk st v := by
  unfold getBlk setBlk
  simp only [List.getD_eq_getElem?_getD, List.getElem?_set]
  by_cases h1 : u = v
  · subst h1
    by_cases h2 : u < st.arena.length
    · simp [h2]
    · have hnone : st.arena[u]? = none :=
        List.getElem?_eq_none (by omega)
      simp [h2, hnone]
  · simp [h1]

theorem getBlk_append_one (st : BLOCK_LIST) (b : BLOCK) (v : Nat) :
    getBlk { st with arena := st.arena ++ [b] } v =
      if v = st.arena.length then b else getBlk st v := by
  unfold getBlk
  simp only [List.getD_eq_getElem?_getD, List.getElem?_append]
  rcases lt_trichotomy v st.arena.length with h | h | h
  · rw [if_pos h, if_neg (by omega)]
  · subst h
    simp
  · have h1 : st.arena[v]? = none := List.getElem?_eq_none (by omega)
    have h2 : ([b] : List BLOCK)[v - st.arena.length]? = none :=
      List.getElem?_eq_none (by simp; omega)
    rw [if_neg (by omega), if_neg (by omega), h1, h2]

theorem getBlk_mapIdx_of_some (st : BLOCK_LIST) (f : Nat → BLOCK → BLOCK)
    (v : Nat) (b : BLOCK) (h : st.arena[v]? = some b) :
    getBlk { st with arena := st.arena.mapIdx f } v = f v b := by
  unfold getBlk
  simp [List.getD_eq_getElem?_getD, List.getElem?_mapIdx, h]

theorem getBlk_mapIdx_of_none (st : BLOCK_LIST) (f : Nat → BLOCK → BLOCK)
    (v : Nat) (h : st.arena[v]? = none) :
    getBlk { st with arena := st.arena.mapIdx f } v = { idx := 0, lines := [] } := by
  unfold getBlk
  simp [List.getD_eq_getElem?_getD, List.getElem?_mapIdx, h]

/-- Writing a link column or a link record leaves the block structure and
order untouched; writing a block's links or col leaves its lines alone. -/
theorem getBlk_setLnk (st : BLOCK_LIST) (lid : Nat) (l : LINK) (v : Nat) :
    getBlk (setLnk st lid l) v = getBlk st v := rfl

theorem addLinkTo_order (st : BLOCK_LIST) (s : Nat) (a d : Option Nat) :
    (addLinkTo st s a d).order = st.order := by
  unfold addLinkTo
  dsimp only
  split <;> rfl

theorem addLinkTo_lines (st : BLOCK_LIST) (s : Nat) (a d : Option Nat) (v : Nat) :
    (getBlk (addLinkTo st s a d) v).lines = (getBlk st v).lines := by
  unfold addLinkTo
  dsimp only
  split
  · rfl
  · rw [getBlk_setBlk]
    split
    · rename_i h
      rw [← h.1]
    · rfl

theorem add_link_pos_spec (st : BLOCK_LIST) (p : Nat) (a d : Option Nat)
    (st1 : BLOCK_LIST) (h : add_link_pos st p a d = .ok st1) :
    st1.order = st.order ∧ ∀ v, (getBlk st1 v).lines = (getBlk st v).lines := by
  unfold add_link_pos at h
  split at h
  · cases h
  · cases h
    exact ⟨addLinkTo_order _ _ _ _, fun v => addLinkTo_lines _ _ _ _ v⟩

theorem getBlk_of_getElem? (st : BLOCK_LIST) (v : Nat) (b : BLOCK)
    (h : st.arena[v]? = some b) : getBlk st v = b := by
  unfold getBlk
  rw [List.getD_eq_getElem?_getD, h]
  rfl

theorem getBlk_of_getElem?_none (st : BLOCK_LIST) (v : Nat)
    (h : st.arena[v]? = none) : getBlk st v = { idx := 0, lines := [] } := by
  unfold getBlk
  rw [List.getD_eq_getElem?_getD, h]
  rfl


theorem splitBump_order (st : BLOCK_LIST) (bidx : Nat) :
    (splitBump st bidx).order = st.order := rfl

theorem splitBump_links (st : BLOCK_LIST) (bidx : Nat) :
    (splitBump st bidx).links = st.links := rfl

theorem splitBump_arena_length (st : BLOCK_LIST) (bidx : Nat) :
    (splitBump st bidx).arena.length = st.arena.length := by
  simp [splitBump]

/-- The index-bumping pass at the top of `split_block` does not touch any
block's lines. -/
theorem splitBump_lines (st : BLOCK_LIST) (bidx : Nat) (v : Nat) :
    (getBlk (splitBump st bidx) v).lines = (getBlk st v).lines := by
  cases harena : st.arena[v]? with
  | none =>
      unfold splitBump
      rw [getBlk_mapIdx_of_none st _ v harena, getBlk_of_getElem?_none st v harena]
  | some b =>
      unfold splitBump
      rw [getBlk_mapIdx_of_some st _ v b harena, getBlk_of_getElem? st v b harena]
      split <;> rfl

theorem getBlk_splitGraft (st : BLOCK_LIST) (bidx cuid : Nat)
    (front tail : BLOCK) (v : Nat) (hc : cuid < st.arena.length) :
    getBlk (splitGraft st bidx cuid front tail) v =
      if v = cuid then tail
      else if v = st.arena.length then front
      else getBlk st v := by
  unfold splitGraft getBlk
  simp only [List.getD_eq_getElem?_getD, List.getElem?_set]
  by_cases h1 : cuid = v
  · subst h1
    have hlt : cuid < (st.arena ++ [front]).length := by
      simp
      omega
    simp [hlt]
    rw [if_pos (show cuid < st.arena.length + 1 by omega)]
    rfl
  · rw [if_neg h1, if_neg (fun hh => h1 hh.symm)]
    simp only [List.getElem?_append]
    rcases lt_trichotomy v st.arena.length with h2 | h2 | h2
    · rw [if_pos h2, if_neg (by omega)]
    · subst h2
      rw [if_neg (by omega), if_pos rfl]
      simp
    · rw [if_neg (by omega), if_neg (by omega)]
      have e1 : st.arena[v]? = none := List.getElem?_eq_none (by omega)
      have e2 : ([front] : List BLOCK)[v - st.arena.length]? = none :=
        List.getElem?_eq_none (by simp; omega)
      rw [e1, e2]

/-- What a successful `split_block` does to the lines of every block: the
target block at position `bidx` is cut at the first line whose address is
`a`; the front part becomes a fresh block object (identifier
`st.arena.length`) inserted at position `bidx`, the target object keeps
the remaining lines, and every other block's lines are untouched. -/
theorem split_block_spec (st : BLOCK_LIST) (bidx a : Nat) (st1 : BLOCK_LIST)
    (r : Nat) (h : split_block st bidx a = .ok (st1, r)) :
    ∃ cuid j,
      st.order.get? bidx = some cuid ∧
      cuid < st.arena.length ∧
      (getBlk st cuid).lines.findIdx? (fun l => l.addr == a) = some j ∧
      r = bidx + 1 ∧
      st1.order = st.order.take bidx ++ st.arena.length :: st.order.drop bidx ∧
      (getBlk st1 st.arena.length).lines = (getBlk st cuid).lines.take j ∧
      (getBlk st1 cuid).lines = (getBlk st cuid).lines.drop j ∧
      (∀ v, v ≠ cuid → v ≠ st.arena.length →
        (getBlk st1 v).lines = (getBlk st v).lines) := by
  unfold split_block at h
  cases hget : (splitBump st bidx).order.get? bidx with
  | none => rw [hget] at h; cases h
  | some cuid =>
  rw [hget] at h
  dsimp only at h
  cases hsp : (getBlk (splitBump st bidx) cuid).split_at a with
  | error e => rw [hsp] at h; cases h
  | ok fr =>
  obtain ⟨front, tail⟩ := fr
  rw [hsp] at h
  dsimp only at h
  cases hduid : (splitGraft (splitBump st bidx) bidx cuid front tail).order.get?
      (getBlk (splitGraft (splitBump st bidx) bidx cuid front tail) cuid).idx with
  | none => rw [hduid] at h; cases h
  | some duid =>
  rw [hduid] at h
  dsimp only at h
  injection h with h
  injection h with h1 h2
  -- dissect split_at
  unfold BLOCK.split_at at hsp
  revert hsp
  cases hfind : (getBlk (splitBump st bidx) cuid).lines.findIdx?
      (fun l => l.addr == a) with
  | none => intro hsp; cases hsp
  | some j =>
  intro hsp
  injection hsp with hsp
  injection hsp with hfront htail
  have hfind' : (getBlk st cuid).lines.findIdx? (fun l => l.addr == a) = some j := by
    rw [← splitBump_lines st bidx cuid]
    exact hfind
  have hcuid_lt : cuid < st.arena.length := by
    by_contra hge
    have hnone : st.arena[cuid]? = none := List.getElem?_eq_none (by omega)
    have hdef : getBlk st cuid = { idx := 0, lines := [] } :=
      getBlk_of_getElem?_none st cuid hnone
    rw [hdef] at hfind'
    cases hfind'
  have hcuid_lt' : cuid < (splitBump st bidx).arena.length := by
    rw [splitBump_arena_length]
    exact hcuid_lt
  have hflen : (splitBump st bidx).arena.length = st.arena.length :=
    splitBump_arena_length st bidx
  refine ⟨cuid, j, hget, hcuid_lt, hfind', h2.symm, ?_, ?_, ?_, ?_⟩
  · -- order of st1
    rw [← h1, addLinkTo_order]
    show ((splitBump st bidx).order.take bidx ++
      (splitBump st bidx).arena.length :: (splitBump st bidx).order.drop bidx) = _
    rw [splitBump_order, hflen]
  · -- the front piece
    rw [← h1, addLinkTo_lines, ← hflen]
    rw [getBlk_splitGraft _ _ _ _ _ _ hcuid_lt']
    rw [if_neg (by omega), if_pos rfl, ← hfront]
    show (getBlk (splitBump st bidx) cuid).lines.take j = _
    rw [splitBump_lines]
  · -- the tail piece
    rw [← h1, addLinkTo_lines]
    rw [getBlk_splitGraft _ _ _ _ _ _ hcuid_lt']
    rw [if_pos rfl, ← htail]
    show (getBlk (splitBump st bidx) cuid).lines.drop j = _
    rw [splitBump_lines]
  · -- untouched blocks
    intro v hv1 hv2
    rw [← h1, addLinkTo_lines]
    rw [getBlk_splitGraft _ _ _ _ _ _ hcuid_lt']
    rw [if_neg hv1, if_neg (by rw [hflen]; exact hv2)]
    exact splitBump_lines st bidx v

theorem byteLen_pos_nonempty (b : BLOCK) (h : 0 < b.byteLen) :
    b.lines ≠ [] := by
  intro he
  unfold BLOCK.byteLen at h
  rw [he] at h
  simp at h

theorem AllNonempty_transfer (st st1 : BLOCK_LIST) (ho : st1.order = st.order)
    (hl : ∀ u, (getBlk st1 u).lines = (getBlk st u).lines)
    (h : AllNonempty st) : AllNonempty st1 := by
  intro uid hmem
  rw [ho] at hmem
  rw [hl uid]
  exact h uid hmem

/-- A split performed while no block starts at the split address (the
situation in which `identify_link_targets` ever splits) keeps every block
non-empty: the cut index is at least 1 and strictly below the line
count. -/
theorem split_block_nonempty (st : BLOCK_LIST) (bidx a : Nat)
    (st1 : BLOCK_LIST) (r : Nat)
    (hstart : ∀ uid ∈ st.order, (getBlk st uid).start ≠ a)
    (hne : AllNonempty st)
    (h : split_block st bidx a = .ok (st1, r)) : AllNonempty st1 := by
  obtain ⟨cuid, j, hget, hlt, hfind, -, horder, hfrontl, htaill, hother⟩ :=
    split_block_spec st bidx a st1 r h
  have hcmem : cuid ∈ st.order := List.mem_iff_get?.mpr ⟨bidx, hget⟩
  have hclines : (getBlk st cuid).lines ≠ [] := hne cuid hcmem
  obtain ⟨hjlt, hjfind⟩ := (List.findIdx?_eq_some_iff_findIdx_eq).mp hfind
  have hj1 : 1 ≤ j := by
    cases hlines : (getBlk st cuid).lines with
    | nil => exact absurd hlines hclines
    | cons l0 rest =>
        have hsa : (getBlk st cuid).start = l0.addr := by
          unfold BLOCK.start
          rw [hlines]
          rfl
        have hl0ne : l0.addr ≠ a := by
          rw [← hsa]
          exact hstart cuid hcmem
        have hl0 : (l0.addr == a) = false := beq_eq_false_iff_ne.mpr hl0ne
        rw [hlines, List.findIdx_cons, hl0] at hjfind
        simp at hjfind
        omega
  have hfront_ne : (getBlk st1 st.arena.length).lines ≠ [] := by
    rw [hfrontl]
    intro hnil
    rw [List.take_eq_nil_iff] at hnil
    rcases hnil with h0 | h0
    · exact absurd h0 (by omega)
    · exact hclines h0
  have htail_ne : (getBlk st1 cuid).lines ≠ [] := by
    rw [htaill]
    intro hnil
    rw [List.drop_eq_nil_iff] at hnil
    omega
  intro uid hmem
  rw [horder] at hmem
  by_cases hf : uid = st.arena.length
  · subst hf
    exact hfront_ne
  · by_cases hc : uid = cuid
    · subst hc
      exact htail_ne
    · rw [hother uid hc hf]
      apply hne uid
      rcases List.mem_append.mp hmem with h1 | h1
      · exact List.take_subset _ _ h1
      · rcases List.mem_cons.mp h1 with h2 | h2
        · exact absurd h2 hf
        · exact List.drop_subset _ _ h2

theorem identEntry_nonempty (st : BLOCK_LIST) (pos srcUid : Nat)
    (e : Option Nat × Nat) (st1 : BLOCK_LIST)
    (hne : AllNonempty st) (h : identEntry st pos srcUid e = .ok st1) :
    AllNonempty st1 := by
  unfold identEntry at h
  cases he : e.1 with
  | none =>
      rw [he] at h
      cases h
      exact hne
  | some a =>
  rw [he] at h
  dsimp only at h
  split at h
  · cases h
    exact hne
  · split at h
    · rename_i duid hfound
      obtain ⟨ho, hl⟩ := add_link_pos_spec _ _ _ _ _ h
      exact AllNonempty_transfer _ _ ho hl hne
    · rename_i hnofound
      split at h
      · rename_i cuid2 hcont
        split at h
        · cases h
        · rename_i st2 dpos hsp
          split at h
          · cases h
          · rename_i duid hduid
            cases h
            have hstart : ∀ uid ∈ st.order, (getBlk st uid).start ≠ a := by
              intro uid hmem heq
              have := List.find?_eq_none.mp hnofound uid hmem
              simp at this
              exact this heq
            have hne2 := split_block_nonempty st _ a st2 dpos hstart hne hsp
            refine AllNonempty_transfer _ _ ?_ ?_ hne2
            · exact addLinkTo_order _ _ _ _
            · intro u
              exact addLinkTo_lines _ _ _ _ u
      · cases h
        exact hne

theorem identEntries_nonempty (es : List (Option Nat × Nat)) :
    ∀ st pos srcUid st1, AllNonempty st →
      identEntries st pos srcUid es = .ok st1 → AllNonempty st1 := by
  induction es with
  | nil =>
      intro st pos srcUid st1 hne h
      cases h
      exact hne
  | cons e rest ih =>
      intro st pos srcUid st1 hne h
      unfold identEntries at h
      split at h
      · cases h
      · rename_i st2 hentry
        exact ih st2 pos srcUid st1
          (identEntry_nonempty st pos srcUid e st2 hne hentry) h

theorem identLoop_nonempty (fuel : Nat) :
    ∀ st pos st1, AllNonempty st →
      identLoop fuel st pos = .ok st1 → AllNonempty st1 := by
  induction fuel with
  | zero =>
      intro st pos st1 _ h
      cases h
  | succ n ih =>
      intro st pos st1 hne h
      unfold identLoop at h
      split at h
      · cases h
      · rename_i srcUid hsrc
        split at h
        · cases h
        · rename_i st2 hentries
          have hne2 := identEntries_nonempty _ st pos srcUid st2 hne hentries
          split at h
          · cases h
            exact hne2
          · exact ih st2 (pos + 1) st1 hne2 h

theorem identify_link_targets_nonempty (st st1 : BLOCK_LIST)
    (hne : AllNonempty st) (h : identify_link_targets st = .ok st1) :
    AllNonempty st1 :=
  identLoop_nonempty _ st 0 st1 hne h

theorem setLinkCol_spec (st : BLOCK_LIST) (lid : Nat) (v : Option Int) :
    (setLinkCol st lid v).order = st.order ∧
    (∀ u, (getBlk (setLinkCol st lid v) u).lines = (getBlk st u).lines) := by
  unfold setLinkCol
  dsimp only
  split
  · split
    · refine ⟨rfl, fun u => ?_⟩
      rw [getBlk_setBlk]
      split
      · rename_i hh
        rw [← hh.1]
      · rfl
    · exact ⟨rfl, fun u => rfl⟩
  · exact ⟨rfl, fun u => rfl⟩

theorem allocLink_spec (st : BLOCK_LIST) (buid lid : Nat) (st1 : BLOCK_LIST)
    (h : allocLink st buid lid = .ok st1) :
    st1.order = st.order ∧
    (∀ u, (getBlk st1 u).lines = (getBlk st u).lines) := by
  unfold allocLink at h
  dsimp only at h
  split at h
  · cases h
    exact ⟨rfl, fun u => rfl⟩
  · split at h
    · split at h
      · cases h
        exact setLinkCol_spec _ _ _
      · split at h
        · cases h
          exact setLinkCol_spec _ _ _
        · cases h
    · split at h
      · cases h
        exact setLinkCol_spec _ _ _
      · split at h
        · cases h
          exact setLinkCol_spec _ _ _
        · cases h

theorem allocLinks_spec (es : List (Option Nat × Nat)) :
    ∀ st buid st1, allocLinks st buid es = .ok st1 →
      st1.order = st.order ∧
      (∀ u, (getBlk st1 u).lines = (getBlk st u).lines) := by
  induction es with
  | nil =>
      intro st buid st1 h
      cases h
      exact ⟨rfl, fun u => rfl⟩
  | cons e rest ih =>
      intro st buid st1 h
      unfold allocLinks at h
      split at h
      · cases h
      · rename_i st2 hstep
        obtain ⟨h1, h2⟩ := allocLink_spec st buid e.2 st2 hstep
        obtain ⟨g1, g2⟩ := ih st2 buid st1 h
        exact ⟨g1.trans h1, fun u => (g2 u).trans (h2 u)⟩

theorem allocBlocks_spec (uids : List Nat) :
    ∀ st st1, allocBlocks st uids = .ok st1 →
      st1.order = st.order ∧
      (∀ u, (getBlk st1 u).lines = (getBlk st u).lines) := by
  induction uids with
  | nil =>
      intro st st1 h
      cases h
      exact ⟨rfl, fun u => rfl⟩
  | cons uid rest ih =>
      intro st st1 h
      unfold allocBlocks at h
      split at h
      · cases h
      · rename_i st2 hstep
        obtain ⟨h1, h2⟩ := allocLinks_spec _ st uid st2 hstep
        obtain ⟨g1, g2⟩ := ih st2 st1 h
        exact ⟨g1.trans h1, fun u => (g2 u).trans (h2 u)⟩

theorem allocate_columns_spec (st st1 : BLOCK_LIST)
    (h : allocate_columns st = .ok st1) :
    st1.order = st.order ∧
    (∀ u, (getBlk st1 u).lines = (getBlk st u).lines) := by
  unfold allocate_columns at h
  split at h
  · cases h
  · rename_i u0 hu0
    dsimp only at h
    obtain ⟨h1, h2⟩ := allocBlocks_spec _ _ st1 h
    constructor
    · rw [h1]
      rfl
    · intro u
      rw [h2 u, getBlk_setBlk]
      split
      · rename_i hh
        rw [← hh.1]
      · rfl

/-- The final column-defaulting pass of `finalize` does not touch lines. -/
theorem colDefault_lines (st : BLOCK_LIST) (f : Nat → BLOCK → BLOCK)
    (hf : ∀ u b, (f u b).lines = b.lines) (u : Nat) :
    (getBlk { st with arena := st.arena.mapIdx f } u).lines =
      (getBlk st u).lines := by
  cases harena : st.arena[u]? with
  | none =>
      rw [getBlk_mapIdx_of_none st f u harena, getBlk_of_getElem?_none st u harena]
  | some b =>
      rw [getBlk_mapIdx_of_some st f u b harena, getBlk_of_getElem? st u b harena]
      exact hf u b

/-- First half of C5: if `finalize` returns, every block of the result has
at least one line (the byte-length assertion forces this before link
resolution, and both splitting and column allocation preserve it). -/
theorem finalize_nonempty (st st1 : BLOCK_LIST) (h : finalize st = .ok st1) :
    AllNonempty st1 := by
  unfold finalize at h
  split at h
  · cases h
  · rename_i luid hlast
    dsimp only at h
    split at h
    · cases h
    · rename_i hc1
      split at h
      · cases h
      · rename_i hc2
        split at h
        · cases h
        · rename_i hc3
          split at h
          · cases h
          · rename_i st2 hident
            split at h
            · cases h
            · rename_i st3 halloc
              split at h
              · cases h
              · rename_i w ws hmap
                split at h
                · cases h
                · rename_i mf mb hmax
                  cases h
                  have hassert' : (({ st with order := st.order.dropLast } :
                      BLOCK_LIST).order.all (fun u => decide
                        (0 < (getBlk { st with order := st.order.dropLast } u).byteLen))) = true := by
                    revert hc2
                    cases hX : (({ st with order := st.order.dropLast } :
                        BLOCK_LIST).order.all (fun u => decide
                          (0 < (getBlk { st with order := st.order.dropLast } u).byteLen))) <;> simp
                  have hne0 : AllNonempty { st with order := st.order.dropLast } := by
                    intro uid hmem
                    have := List.all_eq_true.mp hassert' uid hmem
                    exact byteLen_pos_nonempty _ (of_decide_eq_true this)
                  have hne2 : AllNonempty st2 :=
                    identify_link_targets_nonempty _ st2 hne0 hident
                  have hne3 : AllNonempty st3 := by
                    obtain ⟨ho, hl⟩ := allocate_columns_spec st2 st3 halloc
                    exact AllNonempty_transfer _ _ ho hl hne2
                  intro uid hmem
                  have hmem3 : uid ∈ st3.order := hmem
                  have h3 := hne3 uid hmem3
                  cases harena : st3.arena[uid]? with
                  | none =>
                      rw [getBlk_of_getElem?_none st3 uid harena] at h3
                      exact absurd rfl h3
                  | some b =>
                      rw [getBlk_of_getElem? st3 uid b harena] at h3
                      show ((st3.arena.mapIdx _).getD uid
                        ({ idx := 0, lines := [] } : BLOCK)).lines ≠ []
                      rw [List.getD_eq_getElem?_getD, List.getElem?_mapIdx, harena]
                      simp only [Option.map_some', Option.getD_some]
                      split <;> exact h3

/-- Second half of C5: a block list in which some kept (non-trailing) block
is empty never finalizes — either the trailing-block check or the
byte-length assertion raises first. -/
theorem finalize_empty_block_fatal (st : BLOCK_LIST)
    (hex : ∃ uid ∈ st.order.dropLast, (getBlk st uid).lines = []) :
    ∃ e, finalize st = Except.error e := by
  obtain ⟨uid, hmem, hempty⟩ := hex
  have hordne : st.order ≠ [] := by
    intro hO
    rw [hO] at hmem
    simp at hmem
  obtain ⟨luid, hlast⟩ := Option.isSome_iff_exists.mp
    (List.getLast?_isSome.mpr hordne)
  unfold finalize
  rw [hlast]
  dsimp only
  split
  · exact ⟨.exception, rfl⟩
  · split
    · exact ⟨.assertError, rfl⟩
    · rename_i hc2
      exfalso
      have hX : (({ st with order := st.order.dropLast } :
          BLOCK_LIST).order.all (fun u => decide
            (0 < (getBlk { st with order := st.order.dropLast } u).byteLen))) = true := by
        revert hc2
        cases hv : (({ st with order := st.order.dropLast } :
            BLOCK_LIST).order.all (fun u => decide
              (0 < (getBlk { st with order := st.order.dropLast } u).byteLen))) <;> simp
      have h2 := List.all_eq_true.mp hX uid hmem
      have h3 : 0 < (getBlk st uid).byteLen := of_decide_eq_true h2
      unfold BLOCK.byteLen at h3
      rw [hempty] at h3
      simp at h3

/-- C5: every block of a graph on which `finalize` completed holds at least
one line, and a finalizer input whose kept blocks include an empty one is
rejected with a fatal error rather than silently kept or dropped
(`len(block)` sums the line byte sizes, so it is positive exactly when the
assertion passes, and a positive sum requires at least one line; splits
during link resolution cut at least one line off each side because the
split address is never a block start). -/
theorem C5_finalized_blocks_nonempty :
    (∀ st st1, finalize st = .ok st1 → AllNonempty st1) ∧
    (∀ st, (∃ uid ∈ st.order.dropLast, (getBlk st uid).lines = []) →
       ∃ e, finalize st = Except.error e) :=
  ⟨finalize_nonempty, finalize_empty_block_fatal⟩

/-- Witness for C5: a concrete successful finalization whose blocks are all
non-empty, and a concrete empty-block input that errors. -/
theorem C5_witness :
    AllNonempty stWfin ∧ (∃ e, finalize stWbad = Except.error e) :=
  ⟨C5_finalized_blocks_nonempty.1 stW stWfin rfl,
   C5_finalized_blocks_nonempty.2 stWbad ⟨0, by decide, rfl⟩⟩

theorem splitBump_getBlk (st : BLOCK_LIST) (bidx v : Nat) :
    getBlk (splitBump st bidx) v =
      if st.order.contains v && decide (bidx < (getBlk st v).idx) then
        { getBlk st v with idx := (getBlk st v).idx + 1 }
      else getBlk st v := by
  cases harena : st.arena[v]? with
  | none =>
      unfold splitBump
      rw [getBlk_mapIdx_of_none st _ v harena, getBlk_of_getElem?_none st v harena]
      simp
  | some b =>
      unfold splitBump
      rw [getBlk_mapIdx_of_some st _ v b harena, getBlk_of_getElem? st v b harena]

theorem addLinkTo_idx (st : BLOCK_LIST) (s : Nat) (a d : Option Nat) (v : Nat) :
    (getBlk (addLinkTo st s a d) v).idx = (getBlk st v).idx := by
  unfold addLinkTo
  dsimp only
  split
  · rfl
  · rw [getBlk_setBlk]
    split
    · rename_i h
      rw [← h.1]
    · rfl

theorem getLnk_setBlk (st : BLOCK_LIST) (u : Nat) (b : BLOCK) (lid : Nat) :
    getLnk (setBlk st u b) lid = getLnk st lid := rfl

theorem getLnk_append (st : BLOCK_LIST) (x : LINK) (lid : Nat)
    (hlid : lid < st.links.length) :
    getLnk { st with links := st.links ++ [x] } lid = getLnk st lid := by
  unfold getLnk
  simp only [List.getD_eq_getElem?_getD, List.getElem?_append, if_pos hlid]

/-- Reading a pre-existing link through `addLinkTo` when the address is not
yet a key of the source block's dictionary (the situation for the
automatic fall-through link added after a split, whose source is the brand
new front block with an empty dictionary). -/
theorem addLinkTo_getLnk_of_none (st : BLOCK_LIST) (s : Nat) (a d : Option Nat)
    (hn : (getBlk st s).links.find? (fun e => e.1 == a) = none)
    (lid : Nat) (hlid : lid < st.links.length) :
    getLnk (addLinkTo st s a d) lid = getLnk st lid := by
  unfold addLinkTo
  dsimp only
  rw [hn]
  rw [getLnk_setBlk]
  exact getLnk_append st _ lid hlid

theorem getLnk_splitGraft (st : BLOCK_LIST) (bidx cuid : Nat)
    (front tail : BLOCK) (lid : Nat) (hlid : lid < st.links.length) :
    getLnk (splitGraft st bidx cuid front tail) lid =
      (if (getLnk st lid).dest == some cuid then
        { getLnk st lid with dest := some st.arena.length }
      else getLnk st lid) := by
  unfold splitGraft getLnk
  simp only [List.getD_eq_getElem?_getD, List.getElem?_map,
    List.getElem?_eq_getElem hlid]
  rfl

theorem get?_insert_succ (l : List Nat) (x : Nat) (i : Nat)
    (h : i < l.length) :
    (l.take i ++ x :: l.drop i).get? (i + 1) = l.get? i := by
  have hlen : (l.take i).length = i := by
    rw [List.length_take]
    omega
  rw [List.get?_eq_getElem?, List.getElem?_append, hlen,
    if_neg (by omega)]
  have h1 : i + 1 - i = 1 := by omega
  rw [h1, List.getElem?_cons_succ, List.getElem?_drop, List.get?_eq_getElem?]
  simp

theorem splitFrontPiece_start (C : BLOCK) (j : Nat) (hj : 1 ≤ j) :
    (splitFrontPiece C j).start = C.start := by
  unfold splitFrontPiece BLOCK.start
  simp only [List.head?_eq_getElem?, List.getElem?_take,
    if_pos (show 0 < j by omega)]

theorem splitTailPiece_stop (C : BLOCK) (j : Nat) (hj : j < C.lines.length) :
    (splitTailPiece C j).stop = C.stop := by
  unfold splitTailPiece BLOCK.stop
  rw [List.getLast?_drop, if_neg (by omega)]

theorem start_congr (b c : BLOCK) (h : b.lines = c.lines) :
    b.start = c.start := by
  unfold BLOCK.start
  rw [h]

theorem stop_congr (b c : BLOCK) (h : b.lines = c.lines) :
    b.stop = c.stop := by
  unfold BLOCK.stop
  rw [h]

/-- C6, amended: for a block `C` at position `i` (with contiguous,
positively-sized lines and coherent index) and an address `T` strictly
inside `C` that is the address of one of `C`'s lines, and provided every
edge resolved to `C` targets `C`'s start (the only kind the resolver ever
produces), `split_block` behaves exactly as the claim describes:
`SplitSpec` holds. -/
theorem C6_amended_split_at_line_start
    (st : BLOCK_LIST) (i T cuid : Nat)
    (hpos : st.order.get? i = some cuid)
    (huids : ∀ v ∈ st.order, v < st.arena.length)
    (hidx : (getBlk st cuid).idx = i)
    (hchain : List.Chain' (fun p q => q.addr = p.addr + p.size)
      (getBlk st cuid).lines)
    (hsizes : ∀ l ∈ (getBlk st cuid).lines, 0 < l.size)
    (hinside : (getBlk st cuid).start < T)
    (hline : ∃ l ∈ (getBlk st cuid).lines, l.addr = T)
    (hlinks : ∀ lid < st.links.length, (getLnk st lid).dest = some cuid →
      (getLnk st lid).addr = some ((getBlk st cuid).start)) :
    SplitSpec st i T cuid := by
  have hcmem : cuid ∈ st.order := List.mem_iff_get?.mpr ⟨i, hpos⟩
  have hclt : cuid < st.arena.length := huids cuid hcmem
  have hilt : i < st.order.length := (List.get?_eq_some.mp hpos).1
  have hCne : (getBlk st cuid).lines ≠ [] := by
    obtain ⟨l, hl, -⟩ := hline
    intro hnil
    rw [hnil] at hl
    cases hl
  have hlen0 : 0 < (getBlk st cuid).lines.length := List.length_pos.mpr hCne
  have hex : ∃ x ∈ (getBlk st cuid).lines, (fun l => l.addr == T) x = true := by
    obtain ⟨l, hl1, hl2⟩ := hline
    exact ⟨l, hl1, by simp [hl2]⟩
  obtain ⟨j, hfind⟩ : ∃ j, (getBlk st cuid).lines.findIdx?
      (fun l => l.addr == T) = some j := by
    have hs : ((getBlk st cuid).lines.findIdx? (fun l => l.addr == T)).isSome = true := by
      rw [List.findIdx?_isSome, List.any_eq_true]
      exact hex
    exact Option.isSome_iff_exists.mp hs
  obtain ⟨hjlt, hjeq⟩ := List.findIdx?_eq_some_iff_findIdx_eq.mp hfind
  have hjT : ∀ hw : j < (getBlk st cuid).lines.length,
      (getBlk st cuid).lines[j].addr = T := by
    subst hjeq
    intro hw
    have hh := @List.findIdx_getElem _ (fun l => l.addr == T)
      ((getBlk st cuid).lines) hw
    simpa using hh
  have hstart0 : (getBlk st cuid).start =
      (getBlk st cuid).lines[0].addr := by
    unfold BLOCK.start
    rw [List.head?_eq_getElem?, List.getElem?_eq_getElem hlen0]
    rfl
  have hmono : List.Pairwise (fun a b : LINE => a.addr < b.addr)
      (getBlk st cuid).lines := by
    haveI : IsTrans LINE (fun a b : LINE => a.addr < b.addr) :=
      ⟨fun a b c h1 h2 => Nat.lt_trans h1 h2⟩
    rw [← List.chain'_iff_pairwise]
    rw [List.chain'_iff_get] at hchain ⊢
    intro k hk
    have h1 := hchain k hk
    have h2 := hsizes ((getBlk st cuid).lines.get ⟨k, by omega⟩)
      (List.get_mem _ _ _)
    omega
  have hmono' : ∀ k1 k2 (h1 : k1 < k2) (h2 : k2 < (getBlk st cuid).lines.length),
      (getBlk st cuid).lines[k1].addr <
        (getBlk st cuid).lines[k2].addr := by
    intro k1 k2 h1 h2
    exact List.pairwise_iff_get.mp hmono ⟨k1, by omega⟩ ⟨k2, h2⟩ (by simpa using h1)
  have hj1 : 1 ≤ j := by
    by_contra hcon
    have h0 : j = 0 := by omega
    subst h0
    have h2 := hjT hlen0
    rw [hstart0] at hinside
    omega
  -- the bump leaves the target block untouched
  have hCb : getBlk (splitBump st i) cuid = getBlk st cuid := by
    rw [splitBump_getBlk]
    rw [if_neg]
    intro hcond
    rw [Bool.and_eq_true] at hcond
    have h2 := of_decide_eq_true hcond.2
    omega
  have hsp : (getBlk (splitBump st i) cuid).split_at T =
      .ok (splitFrontPiece (getBlk st cuid) j, splitTailPiece (getBlk st cuid) j) := by
    rw [hCb]
    unfold BLOCK.split_at
    rw [hfind]
    rfl
  have hflen : (splitBump st i).arena.length = st.arena.length :=
    splitBump_arena_length st i
  have hclt' : cuid < (splitBump st i).arena.length := by
    rw [hflen]
    exact hclt
  have hgetG : ∀ v, getBlk (splitGraft (splitBump st i) i cuid
      (splitFrontPiece (getBlk st cuid) j) (splitTailPiece (getBlk st cuid) j)) v =
      if v = cuid then splitTailPiece (getBlk st cuid) j
      else if v = (splitBump st i).arena.length then
        splitFrontPiece (getBlk st cuid) j
      else getBlk (splitBump st i) v :=
    fun v => getBlk_splitGraft _ _ _ _ _ v hclt'
  have hGc : getBlk (splitGraft (splitBump st i) i cuid
      (splitFrontPiece (getBlk st cuid) j) (splitTailPiece (getBlk st cuid) j)) cuid =
      splitTailPiece (getBlk st cuid) j := by
    rw [hgetG, if_pos rfl]
  have hGidx : (getBlk (splitGraft (splitBump st i) i cuid
      (splitFrontPiece (getBlk st cuid) j) (splitTailPiece (getBlk st cuid) j)) cuid).idx =
      i + 1 := by
    rw [hGc]
    show (getBlk st cuid).idx + 1 = i + 1
    rw [hidx]
  have hscr3 : (splitGraft (splitBump st i) i cuid
      (splitFrontPiece (getBlk st cuid) j)
      (splitTailPiece (getBlk st cuid) j)).order.get?
        ((getBlk (splitGraft (splitBump st i) i cuid
          (splitFrontPiece (getBlk st cuid) j)
          (splitTailPiece (getBlk st cuid) j)) cuid).idx) = some cuid := by
    rw [hGidx]
    show (st.order.take i ++ (splitBump st i).arena.length :: st.order.drop i).get?
      (i + 1) = some cuid
    rw [get?_insert_succ st.order _ i hilt]
    exact hpos
  have hGstart : (getBlk (splitGraft (splitBump st i) i cuid
      (splitFrontPiece (getBlk st cuid) j)
      (splitTailPiece (getBlk st cuid) j)) cuid).start = T := by
    rw [hGc]
    unfold splitTailPiece BLOCK.start
    rw [List.head?_eq_getElem?, List.getElem?_drop]
    rw [List.getElem?_eq_getElem (show j + 0 < (getBlk st cuid).lines.length by omega)]
    simp only [Option.map_some', Option.getD_some]
    exact hjT (by omega)
  have hconsec : (getBlk st cuid).lines[j - 1].addr +
      (getBlk st cuid).lines[j - 1].size = T := by
    rw [List.chain'_iff_get] at hchain
    have hc := hchain (j - 1) (by omega)
    simp only [List.get_eq_getElem] at hc
    have e1 : (getBlk st cuid).lines[j - 1 + 1] =
        (getBlk st cuid).lines[j] := by
      congr 1
      omega
    rw [e1, hjT] at hc
    omega
  have hfstop : (splitFrontPiece (getBlk st cuid) j).stop = T := by
    unfold splitFrontPiece BLOCK.stop
    rw [List.getLast?_take, if_neg (show ¬ j = 0 by omega)]
    rw [List.getElem?_eq_getElem
      (show j - 1 < (getBlk st cuid).lines.length by omega)]
    show (match some (getBlk st cuid).lines[j - 1] with
      | some l => l.addr + l.size
      | none => 0) = T
    exact hconsec
  set GR := splitGraft (splitBump st i) i cuid
      (splitFrontPiece (getBlk st cuid) j)
      (splitTailPiece (getBlk st cuid) j) with hGR
  set ST1 := addLinkTo GR ((splitBump st i).arena.length)
      (some ((getBlk GR cuid).start)) (some cuid) with hST1
  have hLf : ∀ v, (getBlk ST1 v).lines = (getBlk GR v).lines := by
    intro v
    rw [hST1]
    exact addLinkTo_lines _ _ _ _ v
  have hIf : ∀ v, (getBlk ST1 v).idx = (getBlk GR v).idx := by
    intro v
    rw [hST1]
    exact addLinkTo_idx _ _ _ _ v
  have hGf : getBlk GR st.arena.length = splitFrontPiece (getBlk st cuid) j := by
    rw [hgetG, if_neg (by omega), if_pos hflen.symm]
  have hGf2 : getBlk GR ((splitBump st i).arena.length) =
      splitFrontPiece (getBlk st cuid) j := by
    rw [hgetG, if_neg (by rw [hflen]; omega), if_pos rfl]
  have hLfront : (getBlk ST1 st.arena.length).lines =
      (getBlk st cuid).lines.take j := by
    rw [hLf, hGf]
    rfl
  have hLtail : (getBlk ST1 cuid).lines = (getBlk st cuid).lines.drop j := by
    rw [hLf, hGc]
    rfl
  have hfs : (getBlk ST1 st.arena.length).start = (getBlk st cuid).start := by
    rw [start_congr (getBlk ST1 st.arena.length)
      (splitFrontPiece (getBlk st cuid) j) hLfront]
    exact splitFrontPiece_start _ _ hj1
  have htps : (splitTailPiece (getBlk st cuid) j).start = T := by
    rw [← hGc]
    exact hGstart
  refine ⟨ST1, ?_, ?_, ?_, ?_, ?_, ?_, ?_, ?_, ?_, ?_, ?_, ?_, ?_, ?_⟩
  · -- the split succeeds and returns i + 1
    unfold split_block
    rw [show (splitBump st i).order.get? i = some cuid from hpos]
    dsimp only
    rw [hsp]
    dsimp only
    rw [hscr3]
  · -- the two pieces concatenate to the original lines
    rw [hLfront, hLtail, List.take_append_drop]
  · -- front piece non-empty
    rw [hLfront]
    intro hnil
    rw [List.take_eq_nil_iff] at hnil
    rcases hnil with h0 | h0
    · omega
    · exact hCne h0
  · -- tail piece non-empty
    rw [hLtail]
    intro hnil
    rw [List.drop_eq_nil_iff] at hnil
    omega
  · -- front lines all strictly below T
    intro l1 hmem
    rw [hLfront] at hmem
    obtain ⟨n, hn⟩ := List.mem_iff_getElem?.mp hmem
    rw [List.getElem?_take] at hn
    by_cases hnj : n < j
    · rw [if_pos hnj] at hn
      obtain ⟨hn1, hn2⟩ := List.getElem?_eq_some.mp hn
      subst hn2
      have hm := hmono' n j hnj hjlt
      have hT := hjT hjlt
      omega
    · rw [if_neg hnj] at hn
      cases hn
  · -- tail lines all at or above T
    intro l2 hmem
    rw [hLtail] at hmem
    obtain ⟨n, hn⟩ := List.mem_iff_getElem?.mp hmem
    rw [List.getElem?_drop] at hn
    obtain ⟨hn1, hn2⟩ := List.getElem?_eq_some.mp hn
    subst hn2
    rcases Nat.eq_zero_or_pos n with h0 | h1
    · subst h0
      have hT : (getBlk st cuid).lines[j + 0].addr = T := hjT hn1
      omega
    · have hm := hmono' j (j + n) (by omega) hn1
      have hT := hjT hjlt
      omega
  · -- front keeps the original start
    exact hfs
  · -- front ends exactly at T
    rw [stop_congr (getBlk ST1 st.arena.length)
      (splitFrontPiece (getBlk st cuid) j) hLfront]
    exact hfstop
  · -- tail starts exactly at T
    rw [start_congr (getBlk ST1 cuid)
      (splitTailPiece (getBlk st cuid) j) hLtail]
    exact htps
  · -- tail keeps the original end
    rw [stop_congr (getBlk ST1 cuid)
      (splitTailPiece (getBlk st cuid) j) hLtail]
    exact splitTailPiece_stop _ _ hjlt
  · -- front keeps the old index
    rw [hIf, hGf]
    show (getBlk st cuid).idx = i
    exact hidx
  · -- tail gets the next index
    rw [hIf, hGc]
    show (getBlk st cuid).idx + 1 = i + 1
    rw [hidx]
  · -- all other blocks are bumped iff their index exceeds i
    intro v hvmem hvne
    have hvlt : v < st.arena.length := huids v hvmem
    rw [hIf v, hgetG v, if_neg hvne, if_neg (by omega)]
    rw [splitBump_getBlk]
    rw [show st.order.contains v = true from List.elem_eq_true_of_mem hvmem,
      Bool.true_and]
    by_cases hlt2 : i < (getBlk st v).idx
    · rw [if_pos (by simpa using hlt2), if_pos hlt2]
    · rw [if_neg (by simpa using hlt2), if_neg hlt2]
  · -- links previously resolved to the block now point at the front piece
    intro lid hlid hdest
    have hGRlen : lid < GR.links.length := by
      rw [hGR]
      show lid < ((splitBump st i).links.map _).length
      rw [List.length_map]
      exact hlid
    have hnone : (getBlk GR ((splitBump st i).arena.length)).links.find?
        (fun e => e.1 == some ((getBlk GR cuid).start)) = none := by
      rw [hGf2]
      rfl
    have h1 : getLnk ST1 lid = getLnk GR lid := by
      rw [hST1]
      exact addLinkTo_getLnk_of_none _ _ _ _ hnone lid hGRlen
    have h2 : getLnk GR lid =
        (if (getLnk st lid).dest == some cuid then
          { getLnk st lid with dest := some ((splitBump st i).arena.length) }
        else getLnk st lid) := by
      rw [hGR]
      exact getLnk_splitGraft (splitBump st i) i cuid _ _ lid hlid
    rw [h1, h2, hdest, if_pos (by simp)]
    constructor
    · show some ((splitBump st i).arena.length) = some st.arena.length
      rw [hflen]
    · show (getLnk st lid).addr = some ((getBlk ST1 st.arena.length).start)
      rw [hlinks lid hlid hdest, hfs]

/-- C6, counterexample: 0x102 lies strictly inside `blkC6` (range
0x100-0x108) but is not the address of any of its lines; `split_at` raises
IndexError instead of producing two blocks, so the claim's quantification
over every address strictly inside the block fails. -/
theorem C6_counterexample :
    blkC6.start < 0x102 ∧ 0x102 < blkC6.stop ∧
    blkC6.split_at 0x102 = Except.error PyErr.indexError := by
  refine ⟨by decide, by decide, ?_⟩
  rfl

/-- Witness for C6 at a concrete graph: splitting block 1 of `stC6w` at
0x108 (the address of its second line). -/
theorem C6_witness : SplitSpec stC6w 1 0x108 1 :=
  C6_amended_split_at_line_start stC6w 1 0x108 1 rfl (by decide) rfl
    (by
      show List.Chain' (fun p q => q.addr = p.addr + p.size)
        [mkLine 0x104, mkLine 0x108]
      simp [mkLine])
    (by decide) (by decide) (by decide) (by decide)

/-! ### Column allocation: state-access and congruence lemmas -/

theorem getLnk_setLnk (st : BLOCK_LIST) (lid : Nat) (l : LINK) (j : Nat) :
    getLnk (setLnk st lid l) j =
      if lid = j ∧ lid < st.links.length then l else getLnk st j := by
  unfold getLnk setLnk
  simp only [List.getD_eq_getElem?_getD, List.getElem?_set]
  by_cases h1 : lid = j
  · subst h1
    by_cases h2 : lid < st.links.length
    · simp [h2]
    · have hnone : st.links[lid]? = none :=
        List.getElem?_eq_none (by omega)
      simp [h2, hnone]
  · simp [h1]

theorem pyRangeInt_nonneg (n x : Int) (hx : x ∈ pyRangeInt n) : 0 ≤ x := by
  unfold pyRangeInt at hx
  split at hx
  · simp at hx
  · obtain ⟨k, _, hk⟩ := List.mem_map.mp hx
    rw [← hk]
    exact Int.ofNat_nonneg k

theorem foldl_min_all_eq (t : List Int) : ∀ a : Int,
    (∀ x ∈ t, x = a) → t.foldl min a = a := by
  induction t with
  | nil => intro a _; rfl
  | cons x t ih =>
      intro a hall
      have hx : x = a := hall x (by simp)
      subst hx
      simp only [List.foldl_cons, min_self]
      exact ih x (fun y hy => hall y (by simp [hy]))

/-- If every element of a non-empty used-column list is `-1`, the
backward-lane generator `range(min(used)-1)` is empty. -/
theorem pyRange_min_neg_ones (u : List Int) (hne : u ≠ [])
    (hall : ∀ x ∈ u, x = -1) : pyRangeInt (minList u - 1) = [] := by
  cases u with
  | nil => exact absurd rfl hne
  | cons h t =>
      have hh : h = -1 := hall h (by simp)
      subst hh
      have hmin : minList (-1 :: t) = -1 :=
        foldl_min_all_eq t (-1) (fun x hx => hall x (by simp [hx]))
      rw [hmin]
      unfold pyRangeInt
      rw [if_pos (by omega)]

/-- Pointwise `idx`-agreement between two states transports every derived
link-geometry notion. -/
theorem linkNotions_congr (st st' : BLOCK_LIST)
    (hidx : ∀ v, (getBlk st' v).idx = (getBlk st v).idx) (l : LINK) :
    srcIdx st' l = srcIdx st l ∧ destIdx st' l = destIdx st l ∧
    forwardsB st' l = forwardsB st l ∧ backwardsB st' l = backwardsB st l ∧
    ∀ i, containsIdx st' l i = containsIdx st l i := by
  have hs : srcIdx st' l = srcIdx st l := by
    unfold srcIdx; rw [hidx]
  have hd : destIdx st' l = destIdx st l := by
    unfold destIdx
    cases l.dest with
    | none => rfl
    | some u => simp only [hidx]
  have hf : forwardsB st' l = forwardsB st l := by
    unfold forwardsB; rw [hs, hd]
  have hb : backwardsB st' l = backwardsB st l := by
    unfold backwardsB; rw [hs, hd]
  refine ⟨hs, hd, hf, hb, fun i => ?_⟩
  unfold containsIdx
  rw [hs, hd, hf, hb]

/-- Rewriting a link record leaves `linkCol` of any fixed link value
unchanged (block columns are untouched). -/
theorem linkCol_setLnk (st : BLOCK_LIST) (lid : Nat) (x : LINK) (l : LINK) :
    linkCol (setLnk st lid x) l = linkCol st l := rfl

/-- Writing a non-negative column through the `LINK.col` setter on a link
with a destination stores it as the destination block's column. -/
theorem setLinkCol_pos_eq (st : BLOCK_LIST) (lid : Nat) (c : Int) (du : Nat)
    (hdest : (getLnk st lid).dest = some du) (hc : 0 ≤ c) :
    setLinkCol st lid (some c) =
      setBlk st du { getBlk st du with col := some c } := by
  unfold setLinkCol
  dsimp only
  rw [hdest]
  dsimp only
  rw [if_pos hc]

/-- Writing a negative column through the `LINK.col` setter lands in the
link's private `_col` slot. -/
theorem setLinkCol_neg_eq (st : BLOCK_LIST) (lid : Nat) (c : Int) (du : Nat)
    (hdest : (getLnk st lid).dest = some du) (hc : ¬ 0 ≤ c) :
    setLinkCol st lid (some c) =
      setLnk st lid { getLnk st lid with colRaw := some c } := by
  unfold setLinkCol
  dsimp only
  rw [hdest]
  dsimp only
  rw [if_neg hc]

/-- Block columns after a block-column write. -/
theorem col_setBlkCol (st : BLOCK_LIST) (du : Nat) (c : Int)
    (hdu : du < st.arena.length) (v : Nat) :
    (getBlk (setBlk st du { getBlk st du with col := some c }) v).col =
      if v = du then some c else (getBlk st v).col := by
  rw [getBlk_setBlk]
  by_cases h1 : v = du
  · subst h1
    rw [if_pos ⟨rfl, hdu⟩, if_pos rfl]
  · rw [if_neg (by intro hh; exact h1 hh.1.symm), if_neg h1]

/-- Effect of a block-column write on `linkCol`: links pointing at the
written block now read the new column, everything else is unchanged. -/
theorem linkCol_setBlkCol (st : BLOCK_LIST) (du : Nat) (c : Int)
    (hdu : du < st.arena.length) (l : LINK) :
    linkCol (setBlk st du { getBlk st du with col := some c }) l =
      if forwardsB st l = true ∧ l.dest = some du then some c
      else linkCol st l := by
  have hidx : ∀ v,
      (getBlk (setBlk st du { getBlk st du with col := some c }) v).idx =
        (getBlk st v).idx := by
    intro v
    rw [getBlk_setBlk]
    split
    · rename_i hh
      rw [← hh.1]
    · rfl
  have hf := (linkNotions_congr st _ hidx l).2.2.1
  by_cases h1 : forwardsB st l = true
  · cases hld : l.dest with
    | none =>
        have hds : l.dest.isSome = true := by
          have h1x := h1
          unfold forwardsB LINK.validB at h1x
          cases hq : l.dest.isSome
          · rw [hq] at h1x
            simp at h1x
          · rfl
        rw [hld] at hds
        simp at hds
    | some u =>
        by_cases h2 : u = du
        · rw [if_pos ⟨h1, by rw [h2]⟩]
          unfold linkCol
          rw [hf, if_pos h1, hld]
          dsimp only
          rw [col_setBlkCol st du c hdu u, if_pos h2]
        · rw [if_neg (fun hh => h2 (Option.some.inj hh.2))]
          unfold linkCol
          rw [hf]
          rw [if_pos h1, if_pos h1, hld]
          dsimp only
          rw [col_setBlkCol st du c hdu u, if_neg h2]
  · rw [if_neg (fun hh => h1 hh.1)]
    unfold linkCol
    rw [hf]
    rw [if_neg h1, if_neg h1]

theorem sameSkel_refl (st : BLOCK_LIST) : SameSkel st st :=
  ⟨rfl, rfl, rfl, fun _ => rfl, fun _ => rfl, fun _ => ⟨rfl, rfl, rfl⟩⟩

/-- Transport of link geometry along skeleton equality. -/
theorem skel_notions (st0 st : BLOCK_LIST) (h : SameSkel st0 st) (j : Nat) :
    (getLnk st j).validB = (getLnk st0 j).validB ∧
    srcIdx st (getLnk st j) = srcIdx st0 (getLnk st0 j) ∧
    destIdx st (getLnk st j) = destIdx st0 (getLnk st0 j) ∧
    forwardsB st (getLnk st j) = forwardsB st0 (getLnk st0 j) ∧
    backwardsB st (getLnk st j) = backwardsB st0 (getLnk st0 j) := by
  obtain ⟨-, -, -, hidx, -, hlnk⟩ := h
  obtain ⟨-, hsrc, hdest⟩ := hlnk j
  have hv : (getLnk st j).validB = (getLnk st0 j).validB := by
    unfold LINK.validB
    rw [hdest]
  have hs : srcIdx st (getLnk st j) = srcIdx st0 (getLnk st0 j) := by
    unfold srcIdx
    rw [hsrc, hidx]
  have hd : destIdx st (getLnk st j) = destIdx st0 (getLnk st0 j) := by
    unfold destIdx
    rw [hdest]
    cases (getLnk st0 j).dest with
    | none => rfl
    | some u => exact hidx u
  refine ⟨hv, hs, hd, ?_, ?_⟩
  · unfold forwardsB
    rw [hv, hs, hd]
  · unfold backwardsB
    rw [hv, hs, hd]

theorem colMono_refl (st : BLOCK_LIST) : ColMono st st :=
  ⟨fun _ _ h => h, fun _ _ h => h⟩

theorem colMono_trans (st1 st2 st3 : BLOCK_LIST) (h12 : ColMono st1 st2)
    (h23 : ColMono st2 st3) : ColMono st1 st3 :=
  ⟨fun u c h => h23.1 u c (h12.1 u c h),
   fun j c h => h23.2 j c (h12.2 j c h)⟩

/-- An assigned link column survives along `ColMono` between two states
with the same skeleton. -/
theorem linkCol_mono (st0 st1 st2 : BLOCK_LIST) (h1 : SameSkel st0 st1)
    (h2 : SameSkel st0 st2) (hm : ColMono st1 st2) (j : Nat) (c : Int)
    (hc : linkCol st1 (getLnk st1 j) = some c) :
    linkCol st2 (getLnk st2 j) = some c := by
  have hf1 := (skel_notions st0 st1 h1 j).2.2.2.1
  have hf2 := (skel_notions st0 st2 h2 j).2.2.2.1
  have hd1 := (h1.2.2.2.2.2 j).2.2
  have hd2 := (h2.2.2.2.2.2 j).2.2
  unfold linkCol at hc ⊢
  rw [hf2]
  rw [hf1] at hc
  by_cases hfwd : forwardsB st0 (getLnk st0 j) = true
  · rw [if_pos hfwd] at hc ⊢
    rw [hd2]
    rw [hd1] at hc
    cases hdd : (getLnk st0 j).dest with
    | none =>
        rw [hdd] at hc
        dsimp only at hc
        exact absurd hc (by simp)
    | some du =>
        rw [hdd] at hc
        dsimp only at hc ⊢
        exact hm.1 du c hc
  · rw [if_neg hfwd] at hc ⊢
    exact hm.2 j c hc

/-! ### Column allocation: coherence and active-link lemmas -/

/-- In a coherent state a block identifier on the order list lives in the
arena, its `idx` is its position, and the position maps back to it. -/
theorem order_uid_facts (st0 : BLOCK_LIST) (hwf : Coherent st0) (u : Nat)
    (hu : u ∈ st0.order) :
    u < st0.arena.length ∧ (getBlk st0 u).idx < st0.order.length ∧
    st0.order.getD ((getBlk st0 u).idx) 0 = u := by
  obtain ⟨q, hq, hqe⟩ := List.getElem_of_mem hu
  have hgd : st0.order.getD q 0 = u := by
    rw [List.getD_eq_getElem?_getD, List.getElem?_eq_getElem hq,
      Option.getD_some, hqe]
  obtain ⟨h1, h2⟩ := hwf.1 q hq
  rw [hgd] at h1 h2
  exact ⟨h1, by rw [h2]; exact hq, by rw [h2]; exact hgd⟩

/-- Two live blocks with the same `idx` are the same block. -/
theorem order_idx_inj (st0 : BLOCK_LIST) (hwf : Coherent st0) (u v : Nat)
    (hu : u ∈ st0.order) (hv : v ∈ st0.order)
    (h : (getBlk st0 u).idx = (getBlk st0 v).idx) : u = v := by
  have h1 := (order_uid_facts st0 hwf u hu).2.2
  have h2 := (order_uid_facts st0 hwf v hv).2.2
  rw [h] at h1
  rw [h2] at h1
  exact h1.symm

/-- The destination of a valid link in a coherent state is a live block. -/
theorem dest_mem_order (st0 : BLOCK_LIST) (hwf : Coherent st0) (j du : Nat)
    (hj : j < st0.links.length) (hd : (getLnk st0 j).dest = some du) :
    du ∈ st0.order := by
  have hall := (hwf.2.1 j hj).2
  rw [hd] at hall
  simp only [Option.all_some] at hall
  exact List.mem_of_elem_eq_true hall

/-- A link's source block sits strictly inside the order list. -/
theorem srcIdx_lt_order_length (st0 : BLOCK_LIST) (hwf : Coherent st0)
    (j : Nat) (hj : j < st0.links.length) :
    srcIdx st0 (getLnk st0 j) < st0.order.length :=
  (order_uid_facts st0 hwf _ (hwf.2.1 j hj).1).2.1

/-- Membership in `find_active`: the link is in range, covers the block
index, and its destination's column is assigned. -/
theorem mem_find_active (st : BLOCK_LIST) (i x : Nat) :
    x ∈ find_active st i ↔ x < st.links.length ∧
      containsIdx st (getLnk st x) i = true ∧
      (match (getLnk st x).dest with
       | some du => ((getBlk st du).col).isSome
       | none => false) = true := by
  unfold find_active
  rw [List.mem_filter, List.mem_range]
  dsimp only
  rw [Bool.and_eq_true]

/-- The column of a coloured forward link that is active at `i` appears in
the forward used-column list computed at `i`. -/
theorem mem_usedCols_fwd (st : BLOCK_LIST) (i x : Nat) (c : Int)
    (hx : x < st.links.length)
    (hf : forwardsB st (getLnk st x) = true)
    (hc : linkCol st (getLnk st x) = some c)
    (hact : containsIdx st (getLnk st x) i = true) :
    c ∈ (find_active st i).filterMap (fun alid =>
      if forwardsB st (getLnk st alid) = true then linkCol st (getLnk st alid)
      else none) := by
  apply List.mem_filterMap.mpr
  refine ⟨x, ?_, ?_⟩
  · rw [mem_find_active]
    refine ⟨hx, hact, ?_⟩
    unfold linkCol at hc
    rw [if_pos hf] at hc
    cases hdx : (getLnk st x).dest with
    | none =>
        rw [hdx] at hc
        dsimp only at hc
        exact absurd hc (by simp)
    | some du =>
        rw [hdx] at hc
        dsimp only at hc
        dsimp only
        rw [hc]
        rfl
  · rw [if_pos hf]
    exact hc

/-- Every entry of the backward used-column list computed at `i` is the
stored `_col` of some in-range backward link. -/
theorem mem_usedCols_bwd (st : BLOCK_LIST) (i : Nat) (c : Int)
    (hc : c ∈ (find_active st i).filterMap (fun alid =>
      if backwardsB st (getLnk st alid) = true then linkCol st (getLnk st alid)
      else none)) :
    ∃ x, x < st.links.length ∧ backwardsB st (getLnk st x) = true ∧
      (getLnk st x).colRaw = some c := by
  obtain ⟨x, hmem, hfx⟩ := List.mem_filterMap.mp hc
  have hx := (mem_find_active st i x).mp hmem
  by_cases hb : backwardsB st (getLnk st x) = true
  · rw [if_pos hb] at hfx
    refine ⟨x, hx.1, hb, ?_⟩
    unfold linkCol at hfx
    have hnf : forwardsB st (getLnk st x) = false := by
      unfold backwardsB at hb
      rw [Bool.and_eq_true] at hb
      unfold forwardsB
      rw [hb.1]
      simp only [Bool.true_and, decide_eq_false_iff_not]
      simp only [decide_eq_true_eq] at hb
      omega
    rw [hnf] at hfx
    simp only [Bool.false_eq_true, if_false] at hfx
    exact hfx
  · rw [if_neg hb] at hfx
    exact absurd hfx (by simp)

/-- What `next(i for i in cands if i not in used) = c` says: `c` is a
candidate and is not used. -/
theorem firstNotIn_spec (cands used : List Int) (c : Int)
    (h : firstNotIn cands used = some c) : c ∉ used ∧ c ∈ cands := by
  unfold firstNotIn at h
  have h1 := List.find?_some h
  have h2 := List.mem_of_find?_eq_some h
  refine ⟨fun hmem => ?_, h2⟩
  have hcon : used.contains c = true := List.elem_eq_true_of_mem hmem
  rw [hcon] at h1
  simp at h1

/-- Laning a forward link: writing the chosen column `c` (non-negative,
not among the used columns at `p`) into the destination block preserves
the sweep invariant, never overwrites a column, and leaves the link
coloured. -/
theorem fwd_assign_inv (st : BLOCK_LIST) (p lid du : Nat) (c : Int)
    (hdu : du < st.arena.length)
    (hlid : lid < st.links.length)
    (hdest : (getLnk st lid).dest = some du)
    (hfwd : forwardsB st (getLnk st lid) = true)
    (hnone : linkCol st (getLnk st lid) = none)
    (hsrcp : srcIdx st (getLnk st lid) = p)
    (hc0 : 0 ≤ c)
    (hcnot : c ∉ (find_active st p).filterMap (fun alid =>
      if forwardsB st (getLnk st alid) = true then linkCol st (getLnk st alid)
      else none))
    (hinv : AllocInv st p) :
    AllocInv (setBlk st du { getBlk st du with col := some c }) p ∧
    ColMono st (setBlk st du { getBlk st du with col := some c }) ∧
    (linkCol (setBlk st du { getBlk st du with col := some c })
      (getLnk (setBlk st du { getBlk st du with col := some c }) lid)).isSome
      = true := by
  obtain ⟨i1, i2, i3, i4, i5, i6⟩ := hinv
  have hidx : ∀ v,
      (getBlk (setBlk st du { getBlk st du with col := some c }) v).idx =
        (getBlk st v).idx := by
    intro v
    rw [getBlk_setBlk]
    split
    · rename_i hh
      rw [← hh.1]
    · rfl
  have hS : ∀ l, srcIdx (setBlk st du { getBlk st du with col := some c }) l =
      srcIdx st l := fun l => (linkNotions_congr st _ hidx l).1
  have hD : ∀ l, destIdx (setBlk st du { getBlk st du with col := some c }) l =
      destIdx st l := fun l => (linkNotions_congr st _ hidx l).2.1
  have hF : ∀ l, forwardsB (setBlk st du { getBlk st du with col := some c }) l =
      forwardsB st l := fun l => (linkNotions_congr st _ hidx l).2.2.1
  have hB : ∀ l, backwardsB (setBlk st du { getBlk st du with col := some c }) l =
      backwardsB st l := fun l => (linkNotions_congr st _ hidx l).2.2.2.1
  have hLC : ∀ l, linkCol (setBlk st du { getBlk st du with col := some c }) l =
      if forwardsB st l = true ∧ l.dest = some du then some c
      else linkCol st l := fun l => linkCol_setBlkCol st du c hdu l
  have hCol : ∀ v,
      (getBlk (setBlk st du { getBlk st du with col := some c }) v).col =
        if v = du then some c else (getBlk st v).col :=
    fun v => col_setBlkCol st du c hdu v
  have hLnk : ∀ j, getLnk (setBlk st du { getBlk st du with col := some c }) j =
      getLnk st j := fun j => getLnk_setBlk st du _ j
  have hlen : (setBlk st du { getBlk st du with col := some c }).links.length =
      st.links.length := rfl
  have hord : (setBlk st du { getBlk st du with col := some c }).order =
      st.order := rfl
  have hcoldu : (getBlk st du).col = none := by
    unfold linkCol at hnone
    rw [if_pos hfwd, hdest] at hnone
    dsimp only at hnone
    exact hnone
  refine ⟨?_, ?_, ?_⟩
  · unfold AllocInv
    simp only [hLnk, hlen, hord, hS, hD, hF, hB, hLC, hCol]
    refine ⟨?_, i2, ?_, i4, ?_, ?_⟩
    · intro u hu c' hc'
      by_cases hud : u = du
      · rw [if_pos hud] at hc'
        injection hc' with hcc
        rw [← hcc]
        exact hc0
      · rw [if_neg hud] at hc'
        exact i1 u hu c' hc'
    · intro j hj hf3 hn3
      split at hn3
      · exact absurd hn3 (by simp)
      · exact i3 j hj hf3 hn3
    · intro j hj hf5 hs5
      by_cases hPj : forwardsB st (getLnk st j) = true ∧
          (getLnk st j).dest = some du
      · refine ⟨lid, hlid, hfwd, ?_, ?_⟩
        · rw [hdest, hPj.2]
        · rw [hsrcp]
      · rw [if_neg hPj] at hs5
        exact i5 j hj hf5 hs5
    · intro j k hj hk hfj hfk hne hsd hds cj ck hcj hck
      by_cases hPj : forwardsB st (getLnk st j) = true ∧
          (getLnk st j).dest = some du
      · by_cases hPk : forwardsB st (getLnk st k) = true ∧
            (getLnk st k).dest = some du
        · exact absurd (hPj.2.trans hPk.2.symm) hne
        · rw [if_pos hPj] at hcj
          rw [if_neg hPk] at hck
          injection hcj with hcc
          subst hcc
          obtain ⟨k0, hk0, hfk0, hdk0, hsk0⟩ := i5 k hk hfk (by rw [hck]; rfl)
          have hlck0 : linkCol st (getLnk st k0) = some ck := by
            unfold linkCol at hck ⊢
            rw [if_pos hfk] at hck
            rw [if_pos hfk0, hdk0]
            exact hck
          have hlcj : linkCol st (getLnk st j) = none := by
            unfold linkCol
            rw [if_pos hfj, hPj.2]
            dsimp only
            exact hcoldu
          have hpj : p ≤ srcIdx st (getLnk st j) := i3 j hj hfj hlcj
          have hdid : destIdx st (getLnk st k0) = destIdx st (getLnk st k) := by
            unfold destIdx
            rw [hdk0]
          have h1 : p < destIdx st (getLnk st k0) := by
            rw [hdid]
            omega
          have hact : containsIdx st (getLnk st k0) p = true := by
            unfold containsIdx
            have hcond : (forwardsB st (getLnk st k0) &&
                decide (srcIdx st (getLnk st k0) ≤ p) &&
                decide (p < destIdx st (getLnk st k0))) = true := by
              simp only [Bool.and_eq_true, decide_eq_true_eq]
              exact ⟨⟨hfk0, hsk0⟩, h1⟩
            rw [if_pos hcond]
          have hmem := mem_usedCols_fwd st p k0 ck hk0 hfk0 hlck0 hact
          exact fun he => hcnot (he ▸ hmem)
      · by_cases hPk : forwardsB st (getLnk st k) = true ∧
            (getLnk st k).dest = some du
        · rw [if_neg hPj] at hcj
          rw [if_pos hPk] at hck
          injection hck with hcc
          subst hcc
          obtain ⟨j0, hj0, hfj0, hdj0, hsj0⟩ := i5 j hj hfj (by rw [hcj]; rfl)
          have hlcj0 : linkCol st (getLnk st j0) = some cj := by
            unfold linkCol at hcj ⊢
            rw [if_pos hfj] at hcj
            rw [if_pos hfj0, hdj0]
            exact hcj
          have hlck : linkCol st (getLnk st k) = none := by
            unfold linkCol
            rw [if_pos hfk, hPk.2]
            dsimp only
            exact hcoldu
          have hpk : p ≤ srcIdx st (getLnk st k) := i3 k hk hfk hlck
          have hdid : destIdx st (getLnk st j0) = destIdx st (getLnk st j) := by
            unfold destIdx
            rw [hdj0]
          have h1 : p < destIdx st (getLnk st j0) := by
            rw [hdid]
            omega
          have hact : containsIdx st (getLnk st j0) p = true := by
            unfold containsIdx
            have hcond : (forwardsB st (getLnk st j0) &&
                decide (srcIdx st (getLnk st j0) ≤ p) &&
                decide (p < destIdx st (getLnk st j0))) = true := by
              simp only [Bool.and_eq_true, decide_eq_true_eq]
              exact ⟨⟨hfj0, hsj0⟩, h1⟩
            rw [if_pos hcond]
          have hmem := mem_usedCols_fwd st p j0 cj hj0 hfj0 hlcj0 hact
          exact fun he => hcnot (he ▸ hmem)
        · rw [if_neg hPj] at hcj
          rw [if_neg hPk] at hck
          exact i6 j k hj hk hfj hfk hne hsd hds cj ck hcj hck
  · constructor
    · intro u c' hc'
      rw [hCol u]
      by_cases hud : u = du
      · rw [hud] at hc'
        rw [hcoldu] at hc'
        exact absurd hc' (by simp)
      · rw [if_neg hud]
        exact hc'
    · intro j c' hc'
      rw [hLnk j]
      exact hc'
  · rw [hLnk lid, hLC (getLnk st lid), if_pos ⟨hfwd, hdest⟩]
    rfl

/-- Laning a backward link: storing `-1` in the link's `_col` preserves
the sweep invariant, never overwrites a column, and leaves the link
coloured. -/
theorem bwd_assign_inv (st : BLOCK_LIST) (p lid : Nat)
    (hlid : lid < st.links.length)
    (hnf : forwardsB st (getLnk st lid) = false)
    (hraw : (getLnk st lid).colRaw = none)
    (hinv : AllocInv st p) :
    AllocInv (setLnk st lid { getLnk st lid with colRaw := some (-1) }) p ∧
    ColMono st (setLnk st lid { getLnk st lid with colRaw := some (-1) }) ∧
    (linkCol (setLnk st lid { getLnk st lid with colRaw := some (-1) })
      (getLnk (setLnk st lid { getLnk st lid with colRaw := some (-1) })
        lid)).isSome = true := by
  obtain ⟨i1, i2, i3, i4, i5, i6⟩ := hinv
  have hG : ∀ q, getLnk (setLnk st lid
        { getLnk st lid with colRaw := some (-1) }) q =
      if lid = q ∧ lid < st.links.length then
        { getLnk st lid with colRaw := some (-1) }
      else getLnk st q :=
    fun q => getLnk_setLnk st lid _ q
  have hdst : ∀ q, (getLnk (setLnk st lid
        { getLnk st lid with colRaw := some (-1) }) q).dest =
      (getLnk st q).dest := by
    intro q
    rw [hG q]
    split
    · rename_i hh
      rw [← hh.1]
    · rfl
  have hsrc : ∀ q, (getLnk (setLnk st lid
        { getLnk st lid with colRaw := some (-1) }) q).src =
      (getLnk st q).src := by
    intro q
    rw [hG q]
    split
    · rename_i hh
      rw [← hh.1]
    · rfl
  have hRaw : ∀ q, (getLnk (setLnk st lid
        { getLnk st lid with colRaw := some (-1) }) q).colRaw =
      if lid = q ∧ lid < st.links.length then some (-1)
      else (getLnk st q).colRaw := by
    intro q
    rw [hG q]
    split
    · rfl
    · rfl
  have hS : ∀ q, srcIdx (setLnk st lid
        { getLnk st lid with colRaw := some (-1) })
      (getLnk (setLnk st lid
        { getLnk st lid with colRaw := some (-1) }) q) =
      srcIdx st (getLnk st q) := by
    intro q
    unfold srcIdx
    rw [hsrc q]
    rfl
  have hD : ∀ q, destIdx (setLnk st lid
        { getLnk st lid with colRaw := some (-1) })
      (getLnk (setLnk st lid
        { getLnk st lid with colRaw := some (-1) }) q) =
      destIdx st (getLnk st q) := by
    intro q
    unfold destIdx
    rw [hdst q]
    rfl
  have hF : ∀ q, forwardsB (setLnk st lid
        { getLnk st lid with colRaw := some (-1) })
      (getLnk (setLnk st lid
        { getLnk st lid with colRaw := some (-1) }) q) =
      forwardsB st (getLnk st q) := by
    intro q
    unfold forwardsB LINK.validB srcIdx destIdx
    rw [hdst q, hsrc q]
    rfl
  have hBw : ∀ q, backwardsB (setLnk st lid
        { getLnk st lid with colRaw := some (-1) })
      (getLnk (setLnk st lid
        { getLnk st lid with colRaw := some (-1) }) q) =
      backwardsB st (getLnk st q) := by
    intro q
    unfold backwardsB LINK.validB srcIdx destIdx
    rw [hdst q, hsrc q]
    rfl
  have hLCq : ∀ q, linkCol (setLnk st lid
        { getLnk st lid with colRaw := some (-1) })
      (getLnk (setLnk st lid
        { getLnk st lid with colRaw := some (-1) }) q) =
      if lid = q ∧ lid < st.links.length then some (-1)
      else linkCol st (getLnk st q) := by
    intro q
    rw [hG q]
    split
    · have hf' : forwardsB (setLnk st lid
          { getLnk st lid with colRaw := some (-1) })
          { getLnk st lid with colRaw := some (-1) } = false := hnf
      unfold linkCol
      rw [hf']
      rw [if_neg Bool.false_ne_true]
    · rfl
  have hColq : ∀ v, (getBlk (setLnk st lid
        { getLnk st lid with colRaw := some (-1) }) v).col =
      (getBlk st v).col := fun v => rfl
  have hlen : (setLnk st lid
        { getLnk st lid with colRaw := some (-1) }).links.length =
      st.links.length := List.length_set st.links lid _
  have hord : (setLnk st lid
        { getLnk st lid with colRaw := some (-1) }).order = st.order := rfl
  refine ⟨?_, ?_, ?_⟩
  · unfold AllocInv
    simp only [hlen, hord, hS, hD, hF, hBw, hRaw, hLCq, hColq, hdst]
    refine ⟨i1, ?_, ?_, ?_, ?_, ?_⟩
    · intro j hj
      split
      · exact Or.inr rfl
      · exact i2 j hj
    · intro j hj hf3 hn3
      split at hn3
      · exact absurd hn3 (by simp)
      · exact i3 j hj hf3 hn3
    · intro j hj hb4 hn4
      split at hn4
      · exact absurd hn4 (by simp)
      · exact i4 j hj hb4 hn4
    · intro j hj hf5 hs5
      split at hs5
      · rename_i hh
        rw [← hh.1] at hf5
        rw [hnf] at hf5
        exact absurd hf5 (by simp)
      · exact i5 j hj hf5 hs5
    · intro j k hj hk hfj hfk hne hsd hds cj ck hcj hck
      split at hcj
      · rename_i hh
        rw [← hh.1] at hfj
        rw [hnf] at hfj
        exact absurd hfj (by simp)
      · split at hck
        · rename_i hh
          rw [← hh.1] at hfk
          rw [hnf] at hfk
          exact absurd hfk (by simp)
        · exact i6 j k hj hk hfj hfk hne hsd hds cj ck hcj hck
  · constructor
    · intro u c' hc'
      exact hc'
    · intro j c' hc'
      rw [hRaw j]
      split
      · rename_i hh
        rw [← hh.1] at hc'
        rw [hraw] at hc'
        exact absurd hc' (by simp)
      · exact hc'
  · rw [hLCq lid, if_pos ⟨rfl, hlid⟩]
    rfl

theorem sameSkel_trans (s1 s2 s3 : BLOCK_LIST) (h12 : SameSkel s1 s2)
    (h23 : SameSkel s2 s3) : SameSkel s1 s3 := by
  obtain ⟨a1, a2, a3, a4, a5, a6⟩ := h12
  obtain ⟨b1, b2, b3, b4, b5, b6⟩ := h23
  refine ⟨b1.trans a1, b2.trans a2, b3.trans a3, fun v => (b4 v).trans (a4 v),
    fun v => (b5 v).trans (a5 v), fun j => ?_⟩
  obtain ⟨c1, c2, c3⟩ := a6 j
  obtain ⟨d1, d2, d3⟩ := b6 j
  exact ⟨d1.trans c1, d2.trans c2, d3.trans c3⟩

theorem sameSkel_setBlkCol (st : BLOCK_LIST) (du : Nat) (c : Int)
    (hdu : du < st.arena.length) :
    SameSkel st (setBlk st du { getBlk st du with col := some c }) := by
  refine ⟨rfl, rfl, List.length_set st.arena du _, ?_, ?_, fun j => ⟨rfl, rfl, rfl⟩⟩
  · intro v
    rw [getBlk_setBlk]
    split
    · rename_i hh
      rw [← hh.1]
    · rfl
  · intro v
    rw [getBlk_setBlk]
    split
    · rename_i hh
      rw [← hh.1]
    · rfl

theorem sameSkel_setLnkRaw (st : BLOCK_LIST) (lid : Nat) (v : Option Int) :
    SameSkel st (setLnk st lid { getLnk st lid with colRaw := v }) := by
  refine ⟨rfl, List.length_set st.links lid _, rfl, fun w => rfl, fun w => rfl, ?_⟩
  intro j
  rw [getLnk_setLnk]
  split
  · rename_i hh
    exact ⟨by rw [← hh.1], by rw [← hh.1], by rw [← hh.1]⟩
  · exact ⟨rfl, rfl, rfl⟩

/-- One pass of the inner allocation loop body: on success the invariant
is maintained, no column is overwritten, the skeleton is unchanged, and a
valid link at the current block comes out coloured. -/
theorem allocLink_inv (st : BLOCK_LIST) (p buid lid : Nat) (st' : BLOCK_LIST)
    (hb : (getBlk st buid).idx = p)
    (hsrc : (getLnk st lid).src = buid)
    (hlid : lid < st.links.length)
    (hdarena : ∀ du, (getLnk st lid).dest = some du → du < st.arena.length)
    (hinv : AllocInv st p)
    (h : allocLink st buid lid = .ok st') :
    AllocInv st' p ∧ ColMono st st' ∧ SameSkel st st' ∧
    ((getLnk st lid).validB = true →
      (linkCol st' (getLnk st' lid)).isSome = true) := by
  unfold allocLink at h
  dsimp only at h
  by_cases hskip :
      (!(getLnk st lid).validB || (linkCol st (getLnk st lid)).isSome) = true
  · rw [if_pos hskip] at h
    injection h with hh
    subst hh
    refine ⟨hinv, colMono_refl st, sameSkel_refl st, ?_⟩
    intro hv
    rw [Bool.or_eq_true] at hskip
    cases hskip with
    | inl hx =>
        rw [hv] at hx
        exact absurd hx (by simp)
    | inr hx => exact hx
  · rw [if_neg hskip] at h
    have hvalid : (getLnk st lid).validB = true := by
      cases hq : (getLnk st lid).validB
      · exact absurd (by rw [hq]; rfl) hskip
      · rfl
    have hnone : linkCol st (getLnk st lid) = none := by
      cases hq : linkCol st (getLnk st lid) with
      | none => rfl
      | some cv => exact absurd (by rw [hq]; simp) hskip
    have hsrcp : srcIdx st (getLnk st lid) = p := by
      unfold srcIdx
      rw [hsrc]
      exact hb
    obtain ⟨du, hdest⟩ : ∃ du, (getLnk st lid).dest = some du := by
      unfold LINK.validB at hvalid
      exact Option.isSome_iff_exists.mp hvalid
    have hdu : du < st.arena.length := hdarena du hdest
    rw [hb] at h
    cases hfwd : forwardsB st (getLnk st lid) with
    | true =>
        rw [hfwd] at h
        rw [if_pos rfl] at h
        cases hused : (find_active st p).filterMap (fun alid =>
            if forwardsB st (getLnk st alid) = true then
              linkCol st (getLnk st alid)
            else none) with
        | nil =>
            rw [hused] at h
            dsimp only at h
            injection h with hh
            subst hh
            rw [setLinkCol_pos_eq st lid 0 du hdest (le_refl 0)]
            have hres := fwd_assign_inv st p lid du 0 hdu hlid hdest hfwd
              hnone hsrcp (le_refl 0)
              (by rw [hused]; exact List.not_mem_nil 0) hinv
            exact ⟨hres.1, hres.2.1, sameSkel_setBlkCol st du 0 hdu,
              fun hq => hres.2.2⟩
        | cons c0 rest =>
            rw [hused] at h
            dsimp only at h
            cases hfind : firstNotIn
                (pyRangeInt (maxList (c0 :: rest) + 2)) (c0 :: rest) with
            | none =>
                rw [hfind] at h
                dsimp only at h
                cases h
            | some c =>
                rw [hfind] at h
                dsimp only at h
                injection h with hh
                subst hh
                obtain ⟨hcnot, hcmem⟩ := firstNotIn_spec _ _ _ hfind
                have hc0 : 0 ≤ c := pyRangeInt_nonneg _ c hcmem
                rw [setLinkCol_pos_eq st lid c du hdest hc0]
                have hres := fwd_assign_inv st p lid du c hdu hlid hdest hfwd
                  hnone hsrcp hc0 (by rw [hused]; exact hcnot) hinv
                exact ⟨hres.1, hres.2.1, sameSkel_setBlkCol st du c hdu,
                  fun hq => hres.2.2⟩
    | false =>
        rw [hfwd] at h
        rw [if_neg Bool.false_ne_true] at h
        have hraw : (getLnk st lid).colRaw = none := by
          unfold linkCol at hnone
          rw [hfwd] at hnone
          rw [if_neg Bool.false_ne_true] at hnone
          exact hnone
        cases hused : (find_active st p).filterMap (fun alid =>
            if backwardsB st (getLnk st alid) = true then
              linkCol st (getLnk st alid)
            else none) with
        | nil =>
            rw [hused] at h
            dsimp only at h
            injection h with hh
            subst hh
            rw [setLinkCol_neg_eq st lid (-1) du hdest (by norm_num)]
            have hres := bwd_assign_inv st p lid hlid hfwd hraw hinv
            exact ⟨hres.1, hres.2.1, sameSkel_setLnkRaw st lid (some (-1)),
              fun hq => hres.2.2⟩
        | cons c0 rest =>
            rw [hused] at h
            dsimp only at h
            have hall : ∀ x ∈ c0 :: rest, x = -1 := by
              intro x hx
              rw [← hused] at hx
              obtain ⟨y, hy, hby, hyraw⟩ := mem_usedCols_bwd st p x hx
              rcases hinv.2.1 y hy with h0 | h0
              · rw [h0] at hyraw
                exact absurd hyraw (by simp)
              · rw [h0] at hyraw
                injection hyraw with hv2
                exact hv2.symm
            have hempty := pyRange_min_neg_ones (c0 :: rest) (by simp) hall
            rw [hempty] at h
            unfold firstNotIn at h
            rw [List.find?_nil] at h
            dsimp only at h
            cases h

/-- The inner allocation loop over one block's dictionary entries:
invariant and skeleton are preserved and every valid link listed in the
entries comes out coloured. -/
theorem allocLinks_inv (st0 : BLOCK_LIST) (p buid : Nat)
    (es : List (Option Nat × Nat)) :
    ∀ st st', SameSkel st0 st →
      (getBlk st0 buid).idx = p →
      (∀ e ∈ es, e.2 < st0.links.length ∧ (getLnk st0 e.2).src = buid) →
      (∀ lid, lid < st0.links.length →
        ∀ du, (getLnk st0 lid).dest = some du → du < st0.arena.length) →
      AllocInv st p →
      allocLinks st buid es = .ok st' →
      SameSkel st0 st' ∧ AllocInv st' p ∧ ColMono st st' ∧
      (∀ e ∈ es, (getLnk st0 e.2).validB = true →
        (linkCol st' (getLnk st' e.2)).isSome = true) := by
  induction es with
  | nil =>
      intro st st' hskel hb hall hdar hinv h
      injection h with hh
      subst hh
      exact ⟨hskel, hinv, colMono_refl st,
        fun e he => absurd he (List.not_mem_nil e)⟩
  | cons e rest ih =>
      intro st st' hskel hb hall hdar hinv h
      unfold allocLinks at h
      split at h
      · cases h
      · rename_i st1 hstep
        have hehead := hall e (by simp)
        have hbst : (getBlk st buid).idx = p := (hskel.2.2.2.1 buid).trans hb
        have hsrcst : (getLnk st e.2).src = buid :=
          ((hskel.2.2.2.2.2 e.2).2.1).trans hehead.2
        have hlidst : e.2 < st.links.length := by
          rw [hskel.2.1]
          exact hehead.1
        have hdarst : ∀ du, (getLnk st e.2).dest = some du →
            du < st.arena.length := by
          intro du hdu
          rw [(hskel.2.2.2.2.2 e.2).2.2] at hdu
          rw [hskel.2.2.1]
          exact hdar e.2 hehead.1 du hdu
        obtain ⟨hinv1, hmono1, hstepskel, hpost1⟩ :=
          allocLink_inv st p buid e.2 st1 hbst hsrcst hlidst hdarst hinv hstep
        have hskel1 : SameSkel st0 st1 := sameSkel_trans st0 st st1 hskel hstepskel
        obtain ⟨hskelF, hinvF, hmono2, hpostF⟩ :=
          ih st1 st' hskel1 hb (fun e' he' => hall e' (by simp [he'])) hdar hinv1 h
        refine ⟨hskelF, hinvF, colMono_trans st st1 st' hmono1 hmono2, ?_⟩
        intro e' he' hv
        rcases List.mem_cons.mp he' with he'' | he''
        · subst he''
          have hvst : (getLnk st e'.2).validB = true := by
            rw [(skel_notions st0 st hskel e'.2).1]
            exact hv
          have hsome := hpost1 hvst
          obtain ⟨c, hc⟩ := Option.isSome_iff_exists.mp hsome
          rw [linkCol_mono st0 st1 st' hskel1 hskelF hmono2 e'.2 c hc]
          rfl
        · exact hpostF e' he'' hv

/-- The outer allocation loop from position `p` to the end of the block
list: on success the invariant holds at a point past every block. -/
theorem allocBlocks_inv (st0 : BLOCK_LIST) (hwf : Coherent st0)
    (rest : List Nat) :
    ∀ p st st', st0.order.drop p = rest →
      SameSkel st0 st → AllocInv st p →
      allocBlocks st rest = .ok st' →
      SameSkel st0 st' ∧ ∃ q, st0.order.length ≤ q ∧ AllocInv st' q := by
  induction rest with
  | nil =>
      intro p st st' hdrop hskel hinv h
      injection h with hh
      subst hh
      exact ⟨hskel, p, List.drop_eq_nil_iff.mp hdrop, hinv⟩
  | cons uid rest' ih =>
      intro p st st' hdrop hskel hinv h
      have hgp : st0.order[p]? = some uid := by
        have h0 : (st0.order.drop p)[0]? = some uid := by
          rw [hdrop]
          simp
        rw [List.getElem?_drop] at h0
        simpa using h0
      have hplen : p < st0.order.length := by
        by_contra hcon
        rw [List.getElem?_eq_none (by omega)] at hgp
        cases hgp
      have hgd : st0.order.getD p 0 = uid := by
        rw [List.getD_eq_getElem?_getD, hgp]
        rfl
      have hmem : uid ∈ st0.order := by
        have hG : st0.order[p] = uid := by
          have := List.getElem?_eq_getElem hplen
          rw [hgp] at this
          exact (Option.some.inj this).symm
        rw [← hG]
        exact List.getElem_mem hplen
      have hdrop' : st0.order.drop (p + 1) = rest' := by
        have h1 : st0.order.drop (p + 1) = (st0.order.drop p).drop 1 := by
          rw [List.drop_drop, Nat.add_comm]
        rw [h1, hdrop]
        rfl
      have hidxu : (getBlk st0 uid).idx = p := by
        have hq := (hwf.1 p hplen).2
        rw [hgd] at hq
        exact hq
      unfold allocBlocks at h
      split at h
      · cases h
      · rename_i st1 hstep
        have hentries : (getBlk st uid).links = (getBlk st0 uid).links :=
          hskel.2.2.2.2.1 uid
        have hall : ∀ e ∈ (getBlk st uid).links,
            e.2 < st0.links.length ∧ (getLnk st0 e.2).src = uid := by
          rw [hentries]
          exact fun e he => hwf.2.2.1 uid hmem e he
        have hdar : ∀ lid, lid < st0.links.length →
            ∀ du, (getLnk st0 lid).dest = some du →
              du < st0.arena.length := by
          intro lid hl du hdu2
          exact (order_uid_facts st0 hwf du
            (dest_mem_order st0 hwf lid du hl hdu2)).1
        obtain ⟨hskel1, hinv1, hmono1, hpost1⟩ :=
          allocLinks_inv st0 p uid (getBlk st uid).links st st1 hskel hidxu
            hall hdar hinv hstep
        have hinv1' : AllocInv st1 (p + 1) := by
          obtain ⟨i1, i2, i3, i4, i5, i6⟩ := hinv1
          refine ⟨i1, i2, ?_, ?_, ?_, i6⟩
          · intro j hj hf3 hn3
            have hge := i3 j hj hf3 hn3
            rcases Nat.lt_or_ge p (srcIdx st1 (getLnk st1 j)) with hlt | hge2
            · omega
            · exfalso
              have heqp : srcIdx st1 (getLnk st1 j) = p := by omega
              have hj0 : j < st0.links.length := by
                rw [← hskel1.2.1]
                exact hj
              have hsrc0 : srcIdx st0 (getLnk st0 j) = p := by
                rw [← (skel_notions st0 st1 hskel1 j).2.1]
                exact heqp
              have hsrcmem : (getLnk st0 j).src ∈ st0.order :=
                (hwf.2.1 j hj0).1
              have hsrcuid : (getLnk st0 j).src = uid := by
                apply order_idx_inj st0 hwf _ _ hsrcmem hmem
                rw [hidxu]
                exact hsrc0
              have hf0 : forwardsB st0 (getLnk st0 j) = true := by
                rw [← (skel_notions st0 st1 hskel1 j).2.2.2.1]
                exact hf3
              have hv0 : (getLnk st0 j).validB = true := by
                unfold forwardsB at hf0
                rw [Bool.and_eq_true] at hf0
                exact hf0.1
              have hdict := hwf.2.2.2.1 j hj0 hv0
              rw [hsrcuid] at hdict
              have hcol := hpost1 ((getLnk st0 j).addr, j)
                (by rw [hentries]; exact hdict) hv0
              rw [hn3] at hcol
              simp at hcol
          · intro j hj hb4 hn4
            have hge := i4 j hj hb4 hn4
            rcases Nat.lt_or_ge p (srcIdx st1 (getLnk st1 j)) with hlt | hge2
            · omega
            · exfalso
              have heqp : srcIdx st1 (getLnk st1 j) = p := by omega
              have hj0 : j < st0.links.length := by
                rw [← hskel1.2.1]
                exact hj
              have hsrc0 : srcIdx st0 (getLnk st0 j) = p := by
                rw [← (skel_notions st0 st1 hskel1 j).2.1]
                exact heqp
              have hsrcmem : (getLnk st0 j).src ∈ st0.order :=
                (hwf.2.1 j hj0).1
              have hsrcuid : (getLnk st0 j).src = uid := by
                apply order_idx_inj st0 hwf _ _ hsrcmem hmem
                rw [hidxu]
                exact hsrc0
              have hb0 : backwardsB st0 (getLnk st0 j) = true := by
                rw [← (skel_notions st0 st1 hskel1 j).2.2.2.2]
                exact hb4
              have hv0 : (getLnk st0 j).validB = true := by
                unfold backwardsB at hb0
                rw [Bool.and_eq_true] at hb0
                exact hb0.1
              have hdict := hwf.2.2.2.1 j hj0 hv0
              rw [hsrcuid] at hdict
              have hcol := hpost1 ((getLnk st0 j).addr, j)
                (by rw [hentries]; exact hdict) hv0
              have hnf : forwardsB st1 (getLnk st1 j) = false := by
                unfold backwardsB at hb4
                rw [Bool.and_eq_true] at hb4
                unfold forwardsB
                rw [hb4.1]
                simp only [Bool.true_and, decide_eq_false_iff_not]
                simp only [decide_eq_true_eq] at hb4
                omega
              have hlcr : linkCol st1 (getLnk st1 j) =
                  (getLnk st1 j).colRaw := by
                unfold linkCol
                rw [hnf]
                rw [if_neg Bool.false_ne_true]
              rw [hlcr, hn4] at hcol
              simp at hcol
          · intro j hj hf5 hs5
            obtain ⟨j0, a, b, c2, d⟩ := i5 j hj hf5 hs5
            exact ⟨j0, a, b, c2, by omega⟩
        exact ih (p + 1) st1 st' hdrop' hskel1 hinv1' h

/-- C7 (corrected): after a successful column allocation on a coherent
state, every forward edge carries a non-negative lane, every backward
edge carries lane `-1` (negative, but shared by all backward edges, so
the claimed pairwise non-collision fails for backward edges — see the
counterexample), and two forward edges with different destinations whose
active ranges overlap carry different lanes.  Forward and backward edges
trivially differ (non-negative vs `-1`); forward edges with the same
destination share that destination's lane by construction. -/
theorem C7_amended_lane_invariants (st st' : BLOCK_LIST) (hwf : Coherent st)
    (h : allocate_columns st = .ok st') :
    (∀ lid, lid < st'.links.length → forwardsB st' (getLnk st' lid) = true →
      ∃ c, linkCol st' (getLnk st' lid) = some c ∧ 0 ≤ c) ∧
    (∀ lid, lid < st'.links.length → backwardsB st' (getLnk st' lid) = true →
      linkCol st' (getLnk st' lid) = some (-1)) ∧
    (∀ l1 l2, l1 < st'.links.length → l2 < st'.links.length →
      forwardsB st' (getLnk st' l1) = true →
      forwardsB st' (getLnk st' l2) = true →
      (getLnk st' l1).dest ≠ (getLnk st' l2).dest →
      srcIdx st' (getLnk st' l1) < destIdx st' (getLnk st' l2) →
      srcIdx st' (getLnk st' l2) < destIdx st' (getLnk st' l1) →
      linkCol st' (getLnk st' l1) ≠ linkCol st' (getLnk st' l2)) := by
  unfold allocate_columns at h
  split at h
  · cases h
  · rename_i u0 heq
    dsimp only at h
    obtain ⟨t, hord⟩ : ∃ t, st.order = u0 :: t := by
      cases hq : st.order with
      | nil =>
          rw [hq] at heq
          cases heq
      | cons a t =>
          rw [hq] at heq
          simp at heq
          exact ⟨t, by rw [heq]⟩
    have h0len : 0 < st.order.length := by
      rw [hord]
      simp
    have hgd0 : st.order.getD 0 0 = u0 := by
      rw [hord]
      rfl
    have hmem0 : u0 ∈ st.order := by
      rw [hord]
      exact List.mem_cons_self u0 t
    have hu0arena : u0 < st.arena.length := by
      have hq := (hwf.1 0 h0len).1
      rw [hgd0] at hq
      exact hq
    have hidx0 : (getBlk st u0).idx = 0 := by
      have hq := (hwf.1 0 h0len).2
      rw [hgd0] at hq
      exact hq
    have hskel1 : SameSkel st
        (setBlk st u0 { getBlk st u0 with col := some 0 }) :=
      sameSkel_setBlkCol st u0 0 hu0arena
    have hfc : ∀ j, j < st.links.length →
        forwardsB (setBlk st u0 { getBlk st u0 with col := some 0 })
          (getLnk (setBlk st u0 { getBlk st u0 with col := some 0 }) j) =
          true →
        (linkCol (setBlk st u0 { getBlk st u0 with col := some 0 })
          (getLnk (setBlk st u0 { getBlk st u0 with col := some 0 })
            j)).isSome = true →
        False := by
      intro j hj hf hs
      have hf0 : forwardsB st (getLnk st j) = true := by
        rw [← (skel_notions st _ hskel1 j).2.2.2.1]
        exact hf
      obtain ⟨du, hdest⟩ : ∃ du, (getLnk st j).dest = some du := by
        have hv : (getLnk st j).validB = true := by
          unfold forwardsB at hf0
          rw [Bool.and_eq_true] at hf0
          exact hf0.1
        unfold LINK.validB at hv
        exact Option.isSome_iff_exists.mp hv
      by_cases hd0 : (getLnk st j).dest = some u0
      · have hdi : destIdx st (getLnk st j) = 0 := by
          unfold destIdx
          rw [hd0]
          dsimp only
          exact hidx0
        unfold forwardsB at hf0
        rw [Bool.and_eq_true] at hf0
        have hlt := hf0.2
        simp only [decide_eq_true_eq] at hlt
        omega
      · have hlc : linkCol (setBlk st u0 { getBlk st u0 with col := some 0 })
            (getLnk (setBlk st u0 { getBlk st u0 with col := some 0 }) j) =
            if forwardsB st (getLnk st j) = true ∧
                (getLnk st j).dest = some u0 then some 0
            else linkCol st (getLnk st j) :=
          linkCol_setBlkCol st u0 0 hu0arena (getLnk st j)
        rw [hlc, if_neg (fun hh => hd0 hh.2)] at hs
        have hdum : du ∈ st.order := dest_mem_order st hwf j du hj hdest
        have hnone : linkCol st (getLnk st j) = none := by
          unfold linkCol
          rw [if_pos hf0, hdest]
          dsimp only
          exact hwf.2.2.2.2.1 du hdum
        rw [hnone] at hs
        simp at hs
    have hinv0 : AllocInv
        (setBlk st u0 { getBlk st u0 with col := some 0 }) 0 := by
      refine ⟨?_, ?_, ?_, ?_, ?_, ?_⟩
      · intro u hu c hc
        rw [col_setBlkCol st u0 0 hu0arena u] at hc
        split at hc
        · injection hc with hcc
          omega
        · have hcl := hwf.2.2.2.2.1 u hu
          rw [hcl] at hc
          cases hc
      · intro j hj
        exact Or.inl (hwf.2.2.2.2.2 j hj)
      · intro j hj hf hn
        exact Nat.zero_le _
      · intro j hj hb hn
        exact Nat.zero_le _
      · intro j hj hf hs
        exact (hfc j hj hf hs).elim
      · intro j k hj hk hfj hfk hne hsd hds cj ck hcj hck
        exact (hfc j hj hfj (by rw [hcj]; rfl)).elim
    have hdrop0 : st.order.drop 0 =
        (setBlk st u0 { getBlk st u0 with col := some 0 }).order := by
      rw [List.drop_zero]
      rfl
    obtain ⟨hskelF, q, hqlen, hinvF⟩ :=
      allocBlocks_inv st hwf _ 0
        (setBlk st u0 { getBlk st u0 with col := some 0 }) st' hdrop0
        hskel1 hinv0 h
    have hlenF : st'.links.length = st.links.length := hskelF.2.1
    have hordF : st'.order = st.order := hskelF.1
    have hfwd_col : ∀ lid, lid < st'.links.length →
        forwardsB st' (getLnk st' lid) = true →
        ∃ c, linkCol st' (getLnk st' lid) = some c ∧ 0 ≤ c := by
      intro lid hlid hf
      have hlid0 : lid < st.links.length := by
        rw [← hlenF]
        exact hlid
      have hnotnone : linkCol st' (getLnk st' lid) ≠ none := by
        intro hn
        have hq3 := hinvF.2.2.1 lid hlid hf hn
        rw [(skel_notions st st' hskelF lid).2.1] at hq3
        have hslt := srcIdx_lt_order_length st hwf lid hlid0
        omega
      obtain ⟨c, hc⟩ := Option.ne_none_iff_exists'.mp hnotnone
      refine ⟨c, hc, ?_⟩
      unfold linkCol at hc
      rw [if_pos hf] at hc
      cases hdd : (getLnk st' lid).dest with
      | none =>
          rw [hdd] at hc
          dsimp only at hc
          exact absurd hc (by simp)
      | some du =>
          rw [hdd] at hc
          dsimp only at hc
          have hdd0 : (getLnk st lid).dest = some du := by
            rw [← (hskelF.2.2.2.2.2 lid).2.2]
            exact hdd
          have hdum : du ∈ st.order := dest_mem_order st hwf lid du hlid0 hdd0
          exact hinvF.1 du (by rw [hordF]; exact hdum) c hc
    refine ⟨hfwd_col, ?_, ?_⟩
    · intro lid hlid hb
      have hlid0 : lid < st.links.length := by
        rw [← hlenF]
        exact hlid
      have hrawsome : (getLnk st' lid).colRaw ≠ none := by
        intro hn
        have hq3 := hinvF.2.2.2.1 lid hlid hb hn
        rw [(skel_notions st st' hskelF lid).2.1] at hq3
        have hslt := srcIdx_lt_order_length st hwf lid hlid0
        omega
      rcases hinvF.2.1 lid hlid with h0 | h0
      · exact absurd h0 hrawsome
      · have hnf : forwardsB st' (getLnk st' lid) = false := by
          unfold backwardsB at hb
          rw [Bool.and_eq_true] at hb
          unfold forwardsB
          rw [hb.1]
          simp only [Bool.true_and, decide_eq_false_iff_not]
          simp only [decide_eq_true_eq] at hb
          omega
        unfold linkCol
        rw [hnf, if_neg Bool.false_ne_true]
        exact h0
    · intro l1 l2 h1 h2 hf1 hf2 hne hs1 hs2
      obtain ⟨c1, hc1, hc1p⟩ := hfwd_col l1 h1 hf1
      obtain ⟨c2, hc2, hc2p⟩ := hfwd_col l2 h2 hf2
      have hne12 := hinvF.2.2.2.2.2 l1 l2 h1 h2 hf1 hf2 hne hs1 hs2 c1 c2 hc1 hc2
      rw [hc1, hc2]
      intro heqq
      exact hne12 (Option.some.inj heqq)

/-- C7 counterexample: on `stC7` (two backward edges, block 2 → block 0
and block 3 → block 1) column allocation succeeds, the two edges have
different destinations and overlapping active ranges — both under the
spec's half-open `min ≤ i < max` formula and under the code's
`__contains__` — at block index 1, yet both are assigned the same lane
`-1`, contradicting the claimed pairwise lane non-collision. -/
theorem C7_counterexample :
    allocate_columns stC7 = .ok stC7done ∧
    (getLnk stC7done 0).dest ≠ (getLnk stC7done 1).dest ∧
    spec_active stC7done (getLnk stC7done 0) 1 = true ∧
    spec_active stC7done (getLnk stC7done 1) 1 = true ∧
    containsIdx stC7done (getLnk stC7done 0) 1 = true ∧
    containsIdx stC7done (getLnk stC7done 1) 1 = true ∧
    linkCol stC7done (getLnk stC7done 0) = some (-1) ∧
    linkCol stC7done (getLnk stC7done 1) = some (-1) :=
  ⟨rfl, by decide, by decide, by decide, by decide, by decide,
    by decide, by decide⟩

/-- Witness for the amended C7 theorem: `stC7` is coherent, allocation
returns `stC7done`, and the theorem instantiated at the two backward
links yields their `-1` lanes. -/
theorem C7_witness :
    linkCol stC7done (getLnk stC7done 0) = some (-1) ∧
    linkCol stC7done (getLnk stC7done 1) = some (-1) :=
  ⟨(C7_amended_lane_invariants stC7 stC7done (by decide) rfl).2.1 0
      (by decide) (by decide),
   (C7_amended_lane_invariants stC7 stC7done (by decide) rfl).2.1 1
      (by decide) (by decide)⟩
